import Mathlib

/-!
Fiber-generator: a verification development for `main.go`.

The program scaffolds a Go Fiber project: it creates a fixed directory layout
under the project directory `baseDir`, renders eight embedded templates by
replacing the token `{AppName}` with `baseDir`, writes them, and finally runs
`go mod init baseDir` inside the new directory.

Embedding conventions.

* A Go `string` is a sequence of bytes: `Bytes := List UInt8`.  No arithmetic
  is done on bytes, only comparison.
* `strings.Index`, `strings.Count`, `strings.Replace`, `filepath.Clean`,
  `filepath.Join`, `filepath.Dir` are standard-library functions called by
  `main.go`; they are embedded here from their Go definitions (the Unix
  variants, separator `/`, no volume names).
* The operating system is explicit state: `FS` holds the directories and the
  regular files, keyed by path; `os.MkdirAll` and `os.WriteFile` are functions
  on that state.  Failures that the model cannot derive from the state
  (permissions, full disk) come from a fault table in the environment `Env`.
* The embedded template store and the external `go` command are parameters
  of the environment.
* Go ranges over a map in an unspecified order: the order in which `generate`
  visits `templatePaths` is an explicit argument, a permutation of the table.
* Every call that `generate` makes on its environment is appended to a log,
  so that statements of the form "no later step is performed" can be made.
* What `generate` and `runGoModInit` print on standard output is not part of
  the model.
-/

namespace FiberGen

/-! ## Strings -/

/-- A Go string: a finite sequence of bytes. -/
abbrev Bytes := List UInt8

/-- The bytes of an ASCII literal. -/
def str (s : String) : Bytes := s.toList.map (fun c => UInt8.ofNat c.toNat)

/-- The placeholder `{AppName}` of `readTemplateFile`, as bytes. -/
def token : Bytes := [123, 65, 112, 112, 78, 97, 109, 101, 125]

/-- The function `strings.HasPrefix(s, pre)`. -/
def HasPrefix (s pre : Bytes) : Bool := pre.isPrefixOf s

/-- The function `strings.Index(s, substr)`: the index of the first occurrence of `substr`
in `s`; Go's `-1` is `none`. -/
def Index : Bytes → Bytes → Option Nat
  | [], substr => if substr.isEmpty then some 0 else none
  | c :: s, substr =>
    if HasPrefix (c :: s) substr then some 0 else (Index s substr).map (· + 1)

/-- The loop of `strings.Count` for a non-empty `substr`:
`for { i := Index(s, substr); if i == -1 { return n }; n++; s = s[i+len(substr):] }`.
The first argument bounds the number of iterations. -/
def countLoop (substr : Bytes) : Nat → Bytes → Nat → Nat
  | 0, _, n => n
  | fuel + 1, s, n =>
    match Index s substr with
    | none => n
    | some i => countLoop substr fuel (s.drop (i + substr.length)) (n + 1)

/-- The function `strings.Count(s, substr)` for a non-empty `substr`: the number of
non-overlapping occurrences, found left to right.  Each iteration removes at
least one byte of `s`, so `len(s) + 1` iterations are enough
(`countLoop_fuel`).  The branch of `strings.Count` for an empty `substr`
(rune count plus one) is not part of this model. -/
def Count (s substr : Bytes) : Nat := countLoop substr (s.length + 1) s 0

/-- The replacement loop of `strings.Replace`:
```
start := 0
for i := 0; i < n; i++ {
  j := start + Index(s[start:], old)
  b.WriteString(s[start:j]); b.WriteString(new)
  start = j + len(old)
}
b.WriteString(s[start:])
```
The first numeric argument is the number of iterations left.  `Index` cannot
fail inside the loop because `n` never exceeds `Count(s, old)`; the model
closes the buffer in that case. -/
def replaceLoop (s old new : Bytes) : Nat → Nat → Bytes → Bytes
  | 0, start, b => b ++ s.drop start
  | k + 1, start, b =>
    match Index (s.drop start) old with
    | none => b ++ s.drop start
    | some i =>
      let j := start + i
      replaceLoop s old new k (j + old.length) (b ++ (s.drop start).take i ++ new)

/-- The function `strings.Replace(s, old, new, -1)` for a non-empty `old`. -/
def Replace (s old new : Bytes) : Bytes :=
  if old = new then s
  else
    let m := Count s old
    if m = 0 then s else replaceLoop s old new m 0 []

/-- The split of `s` on `sep` in the words of the specification: scan `s`
from the left; wherever `sep` starts, close the current piece and skip the
occurrence; every other byte goes to the current piece.  `skip` is the number
of bytes of an occurrence still to be skipped, `cur` the current piece. -/
def splitScan (sep : Bytes) : Bytes → Nat → Bytes → List Bytes
  | [], _, cur => [cur]
  | _ :: t, skip + 1, cur => splitScan sep t skip cur
  | c :: t, 0, cur =>
    if sep.isPrefixOf (c :: t) then cur :: splitScan sep t (sep.length - 1) []
    else splitScan sep t 0 (cur ++ [c])

/-- The pieces of `s` between the non-overlapping occurrences of `sep`. -/
def splitOnToken (s sep : Bytes) : List Bytes := splitScan sep s 0 []

/-- The pieces joined again, with `v` between consecutive pieces. -/
def joinWith (v : Bytes) : List Bytes → Bytes
  | [] => []
  | [p] => p
  | p :: q :: ps => p ++ v ++ joinWith v (q :: ps)

/-! ## Errors -/

/-- The errors `generate` can return, each with the data its message carries. -/
inductive GenError where
  /-- Built by `fmt.Errorf("error reading file %s: %w", filePath, err)`. -/
  | readTemplate (filePath cause : Bytes)
  /-- Built by `fmt.Errorf("error creating directory %s: %w", dir, err)`. -/
  | createDir (dir cause : Bytes)
  /-- Built by `fmt.Errorf("error creating file %s: %w", filePath, err)`. -/
  | createFile (filePath cause : Bytes)
  /-- Built by `fmt.Errorf("error running 'go mod init %s': %s", baseDir, output)`. -/
  | goModInit (baseDir output : Bytes)
  deriving DecidableEq, Repr

/-- The text of an error, as `fmt.Errorf` formats it. -/
def GenError.message : GenError → Bytes
  | .readTemplate p cause => str "error reading file " ++ p ++ str ": " ++ cause
  | .createDir d cause => str "error creating directory " ++ d ++ str ": " ++ cause
  | .createFile p cause => str "error creating file " ++ p ++ str ": " ++ cause
  | .goModInit b out => str "error running \x27go mod init " ++ b ++ str "\x27: " ++ out

/-- The embedded template store `templateFs`: `ReadFile` returns the content
of a template or the text of its error. -/
abbrev TemplateFs := Bytes → Except Bytes Bytes

/-- The function `readTemplateFile`: read the template and replace `{AppName}` by `baseDir`. -/
def readTemplateFile (templateFs : TemplateFs) (baseDir filePath : Bytes) :
    Except GenError Bytes :=
  match templateFs filePath with
  | .error err => .error (.readTemplate filePath err)
  | .ok content => .ok (Replace content token baseDir)

/-! ## Paths: `filepath.Clean`, `filepath.Join`, `filepath.Dir` (Unix) -/

/-- The path separator `/`. -/
def sep : UInt8 := 47

/-- The byte `.`. -/
def dot : UInt8 := 46

/-- The function `os.IsPathSeparator`. -/
def IsPathSeparator (c : UInt8) : Bool := c == sep

/-- The inner loop of the `..` case of `Clean`, after `out.w--`:
`for out.w > dotdot && !os.IsPathSeparator(out.index(out.w)) { out.w-- }`.
`buf` is the buffer, the numeric argument is `out.w`, the result the final `out.w`. -/
def backtrackLoop (buf : Bytes) (dotdot : Nat) : Nat → Nat
  | 0 => 0
  | w + 1 =>
    if w + 1 > dotdot ∧ buf.get? (w + 1) ≠ some sep then backtrackLoop buf dotdot w
    else w + 1

/-- The `..` case of `Clean` when `out.w > dotdot`: drop the last element of
the output together with the separator in front of it. -/
def backtrack (out : Bytes) (dotdot : Nat) : Bytes :=
  out.take (backtrackLoop out dotdot (out.length - 1))

/-- Whether the element starting at the current byte ends here: the test
`r+1 == n || os.IsPathSeparator(path[r+1])` on the bytes behind the current one. -/
def endsHere : Bytes → Bool
  | [] => true
  | c :: _ => IsPathSeparator c

/-- The main loop of `filepath.Clean`.  `path` is the unread input `path[r:]`,
`out` the bytes written so far (`buf[:out.w]`), `dotdot` the index where `..`
must stop.  The first argument bounds the number of iterations; every
iteration reads at least one byte. -/
def cleanLoop (rooted : Bool) : Nat → Bytes → Bytes → Nat → Bytes
  | 0, _, out, _ => out
  | fuel + 1, path, out, dotdot =>
    match path with
    | [] => out
    | c :: rest =>
      if IsPathSeparator c then
        -- empty path element
        cleanLoop rooted fuel rest out dotdot
      else if c = dot ∧ endsHere rest then
        -- . element
        cleanLoop rooted fuel rest out dotdot
      else if c = dot ∧ rest.head? = some dot ∧ endsHere rest.tail then
        -- .. element: remove to last separator
        if out.length > dotdot then
          cleanLoop rooted fuel rest.tail (backtrack out dotdot) dotdot
        else if !rooted then
          let out1 := (if out.length > 0 then out ++ [sep] else out) ++ [dot, dot]
          cleanLoop rooted fuel rest.tail out1 out1.length
        else
          cleanLoop rooted fuel rest.tail out dotdot
      else
        -- real path element: add slash if needed, copy element
        let out1 :=
          if (rooted && out.length != 1) || (!rooted && out.length != 0) then out ++ [sep]
          else out
        cleanLoop rooted fuel (path.dropWhile (fun b => !IsPathSeparator b))
          (out1 ++ path.takeWhile (fun b => !IsPathSeparator b)) dotdot

/-- The function `filepath.Clean(path)`. -/
def Clean (path : Bytes) : Bytes :=
  match path with
  | [] => [dot]
  | c :: rest =>
    let rooted := IsPathSeparator c
    let out :=
      if rooted then cleanLoop true rest.length rest [sep] 1
      else cleanLoop false path.length path [] 0
    if out.length = 0 then [dot] else out

/-- The function `strings.Join(elems, s)`. -/
def stringsJoin (s : Bytes) : List Bytes → Bytes
  | [] => []
  | [e] => e
  | e :: f :: es => e ++ s ++ stringsJoin s (f :: es)

/-- The function `filepath.Join(elem...)`: the elements from the first non-empty one on,
joined by the separator and cleaned; empty when all are empty. -/
def Join : List Bytes → Bytes
  | [] => []
  | e :: es => if e ≠ [] then Clean (stringsJoin [sep] (e :: es)) else Join es

/-- The function `filepath.Dir(path)`: `path` up to its last separator, cleaned. -/
def Dir (path : Bytes) : Bytes :=
  Clean (path.rdropWhile (fun b => !IsPathSeparator b))

/-! ## The tables of `generate` -/

/-- The variable `viewDir` of `generate`. -/
def viewDir (baseDir : Bytes) : Bytes := Join [baseDir, str "views"]

/-- The variable `publicDir` of `generate`. -/
def publicDir (baseDir : Bytes) : Bytes := Join [baseDir, str "public"]

/-- The variable `publicCSSDir` of `generate`. -/
def publicCSSDir (baseDir : Bytes) : Bytes := Join [publicDir baseDir, str "css"]

/-- The variable `publicJSDir` of `generate`. -/
def publicJSDir (baseDir : Bytes) : Bytes := Join [publicDir baseDir, str "js"]

/-- The variable `publicLibDir` of `generate`. -/
def publicLibDir (baseDir : Bytes) : Bytes := Join [publicDir baseDir, str "lib"]

/-- The variable `routesDir` of `generate`. -/
def routesDir (baseDir : Bytes) : Bytes := Join [baseDir, str "routes"]

/-- The variable `controllersDir` of `generate`. -/
def controllersDir (baseDir : Bytes) : Bytes := Join [baseDir, str "controllers"]

/-- The map literal `templatePaths`: destination path and template, in the
order of the source text. -/
def templatePaths (baseDir : Bytes) : List (Bytes × Bytes) :=
  [ (Join [viewDir baseDir, str "index.html"], str "templates/html/index.html"),
    (Join [publicCSSDir baseDir, str "style.css"], str "templates/css/style.css"),
    (Join [publicJSDir baseDir, str "app.js"], str "templates/js/index.js"),
    (Join [publicLibDir baseDir, str "htmx.min.js"], str "templates/lib/htmx.min.js"),
    (Join [routesDir baseDir, str "userRoutes.go"], str "templates/go/userRoutes.go"),
    (Join [controllersDir baseDir, str "CreateUserHandler.go"], str "templates/go/userHandler.go"),
    (Join [baseDir, str "app.go"], str "templates/go/app.go"),
    (Join [baseDir, str "Makefile"], str "templates/Makefile") ]

/-- The slice `dirs`. -/
def dirs (baseDir : Bytes) : List Bytes :=
  [viewDir baseDir, publicCSSDir baseDir, publicJSDir baseDir, publicLibDir baseDir,
    routesDir baseDir, controllersDir baseDir]

/-! ## The file system

Paths are identified by their spelling.  `generate` passes only results of
`filepath.Join`, that is cleaned paths; for these, different spellings name
different files as long as no symbolic links are involved.  A failed
`os.WriteFile` leaves the file system as it found it (the failure is at
opening the file); a failed `os.MkdirAll` may have created ancestors. -/

/-- The state of the file system: the directories that were created and the
regular files with their content. -/
structure FS where
  dirs : List Bytes
  files : List (Bytes × Bytes)
  deriving DecidableEq, Repr

/-- A file system in which nothing has been created yet. -/
def FS.empty : FS := ⟨[], []⟩

/-- Paths of the form `..`, `../..`, and so on. -/
def isDotDots : Bytes → Bool
  | a :: b :: [] => a == dot && b == dot
  | a :: b :: c :: rest => a == dot && b == dot && c == sep && isDotDots rest
  | _ => false

/-- Directories that exist without being created: the working directory `.`,
the root `/` and the ancestors `..`, `../..` of the working directory. -/
def implicitDir (p : Bytes) : Bool := p == [dot] || p == [sep] || isDotDots p

/-- Whether `p` names a directory. -/
def FS.isDir (fs : FS) (p : Bytes) : Bool := implicitDir p || decide (p ∈ fs.dirs)

/-- The content of the regular file `p`, if there is one. -/
def FS.readFile (fs : FS) (p : Bytes) : Option Bytes := fs.files.lookup p

/-- Whether `p` names a regular file. -/
def FS.isFile (fs : FS) (p : Bytes) : Bool := (fs.readFile p).isSome

/-- Set the content stored under `k`, in place when `k` is present. -/
def upsert : List (Bytes × Bytes) → Bytes → Bytes → List (Bytes × Bytes)
  | [], k, v => [(k, v)]
  | (k0, v0) :: rest, k, v => if k0 = k then (k, v) :: rest else (k0, v0) :: upsert rest k v

/-- The proper ancestors of a cleaned path, outermost first: the root when the
path is rooted, and the part in front of every later separator. -/
def ancestors (p : Bytes) : List Bytes :=
  (List.range p.length).filterMap fun i =>
    if p.get? i = some sep then some (if i = 0 then [sep] else p.take i) else none

/-- Failures that do not follow from the state of the file system: the error
text of creating the directory, or of opening the file for writing, at a path
(`none`: no failure). -/
structure Faults where
  mkdir : Bytes → Option Bytes
  write : Bytes → Option Bytes

/-- One step of `os.MkdirAll`: make sure `q` is a directory. -/
def mkdirStep (faults : Faults) (fs : FS) (q : Bytes) : FS × Option Bytes :=
  if fs.isDir q then (fs, none)
  else if fs.isFile q then (fs, some (str "mkdir " ++ q ++ str ": not a directory"))
  else
    match faults.mkdir q with
    | some e => (fs, some e)
    | none => ({ fs with dirs := fs.dirs ++ [q] }, none)

/-- Apply `mkdirStep` to the paths in turn, stopping at the first error. -/
def mkdirChain (faults : Faults) : FS → List Bytes → FS × Option Bytes
  | fs, [] => (fs, none)
  | fs, q :: qs =>
    match mkdirStep faults fs q with
    | (fs1, some e) => (fs1, some e)
    | (fs1, none) => mkdirChain faults fs1 qs

/-- The function `os.MkdirAll(path, perm)`: nothing to do when `path` is a directory, an
error when it is a regular file, otherwise create the missing ancestors and
`path` itself, outermost first.  Returns the new state and the error, if any. -/
def MkdirAll (faults : Faults) (fs : FS) (path : Bytes) : FS × Option Bytes :=
  if fs.isDir path then (fs, none)
  else if fs.isFile path then (fs, some (str "mkdir " ++ path ++ str ": not a directory"))
  else mkdirChain faults fs (ancestors path ++ [path])

/-- The function `os.WriteFile(name, data, perm)`: create or truncate the file and write
`data`.  Fails when `name` is a directory or its directory does not exist. -/
def WriteFile (faults : Faults) (fs : FS) (name data : Bytes) : FS × Option Bytes :=
  if fs.isDir name then (fs, some (str "open " ++ name ++ str ": is a directory"))
  else if fs.isFile (Dir name) then (fs, some (str "open " ++ name ++ str ": not a directory"))
  else if !fs.isDir (Dir name) then
    (fs, some (str "open " ++ name ++ str ": no such file or directory"))
  else
    match faults.write name with
    | some e => (fs, some e)
    | none => ({ fs with files := upsert fs.files name data }, none)

/-! ## The environment and the run -/

/-- What `cmd.CombinedOutput()` reports for `go mod init`: whether it
returned an error (the command could not be started or exited non-zero) and
the combined output. -/
structure CmdResult where
  failed : Bool
  output : Bytes
  deriving DecidableEq, Repr

/-- The environment of a run: the embedded templates, the failures of the
file system, and the external command: `goModInit dir name fs` is the result
of `go mod init name` run in directory `dir` when the file system is `fs`.
What the command writes itself (`go.mod`) is not part of the state, which
records what was created through `os.MkdirAll` and `os.WriteFile`. -/
structure Env where
  templateFs : TemplateFs
  faults : Faults
  goModInit : Bytes → Bytes → FS → CmdResult

/-- The calls `generate` makes on its environment. -/
inductive Op where
  | mkdirAll (dir : Bytes)
  | readFile (template : Bytes)
  | writeFile (path : Bytes)
  | goModInit (baseDir : Bytes)
  deriving DecidableEq, Repr

/-- A call that was made, and whether it succeeded. -/
structure Call where
  op : Op
  ok : Bool
  deriving DecidableEq, Repr

/-- The file system together with the log of the calls made so far. -/
structure World where
  fs : FS
  log : List Call
  deriving DecidableEq, Repr

/-- The result of a run or of a part of it: the error returned (`none` for
`nil`) and the world it leaves. -/
structure Outcome where
  err : Option GenError
  world : World
  deriving DecidableEq, Repr

/-- The loop `for _, dir := range dirs { os.MkdirAll(dir, os.ModePerm) ... }`. -/
def createDirs (faults : Faults) : World → List Bytes → Outcome
  | w, [] => ⟨none, w⟩
  | w, dir :: rest =>
    match MkdirAll faults w.fs dir with
    | (fs1, some e) => ⟨some (.createDir dir e), ⟨fs1, w.log ++ [⟨.mkdirAll dir, false⟩]⟩⟩
    | (fs1, none) => createDirs faults ⟨fs1, w.log ++ [⟨.mkdirAll dir, true⟩]⟩ rest

/-- The loop `for filePath, templatePath := range templatePaths { ... }` over
the entries in the order they are visited. -/
def writeFiles (env : Env) (baseDir : Bytes) : World → List (Bytes × Bytes) → Outcome
  | w, [] => ⟨none, w⟩
  | w, (filePath, templatePath) :: rest =>
    match readTemplateFile env.templateFs baseDir templatePath with
    | .error e => ⟨some e, ⟨w.fs, w.log ++ [⟨.readFile templatePath, false⟩]⟩⟩
    | .ok content =>
      match WriteFile env.faults w.fs filePath content with
      | (fs1, some e) =>
        ⟨some (.createFile filePath e),
          ⟨fs1, w.log ++ [⟨.readFile templatePath, true⟩, ⟨.writeFile filePath, false⟩]⟩⟩
      | (fs1, none) =>
        writeFiles env baseDir
          ⟨fs1, w.log ++ [⟨.readFile templatePath, true⟩, ⟨.writeFile filePath, true⟩]⟩ rest

/-- The function `runGoModInit`: run `go mod init baseDir` in the directory `baseDir`. -/
def runGoModInit (env : Env) (baseDir : Bytes) (w : World) : Outcome :=
  let r := env.goModInit baseDir baseDir w.fs
  if r.failed then
    ⟨some (.goModInit baseDir r.output), ⟨w.fs, w.log ++ [⟨.goModInit baseDir, false⟩]⟩⟩
  else ⟨none, ⟨w.fs, w.log ++ [⟨.goModInit baseDir, true⟩]⟩⟩

/-- The function `generate`, for the project name `baseDir`, visiting the entries of
`templatePaths` in the order `order` (a permutation of `templatePaths baseDir`). -/
def generate (env : Env) (baseDir : Bytes) (order : List (Bytes × Bytes)) (w : World) :
    Outcome :=
  let o1 := createDirs env.faults w (dirs baseDir)
  match o1.err with
  | some e => ⟨some e, o1.world⟩
  | none =>
    let o2 := writeFiles env baseDir o1.world order
    match o2.err with
    | some e => ⟨some e, o2.world⟩
    | none => runGoModInit env baseDir o2.world

/-- The two phases of `generate` in front of the external command. -/
def createAndWrite (env : Env) (baseDir : Bytes) (order : List (Bytes × Bytes)) (w : World) :
    Outcome :=
  let o1 := createDirs env.faults w (dirs baseDir)
  match o1.err with
  | some e => ⟨some e, o1.world⟩
  | none => writeFiles env baseDir o1.world order

/-! ## The log of a run -/

/-- The successful calls of the directory loop for the directories `ds`. -/
def dirCalls (ds : List Bytes) : List Call := ds.map fun d => ⟨.mkdirAll d, true⟩

/-- The successful calls of the file loop for the entries `es`. -/
def fileCalls (es : List (Bytes × Bytes)) : List Call :=
  es.flatMap fun e => [⟨.readFile e.2, true⟩, ⟨.writeFile e.1, true⟩]

/-- The calls of a complete run, in program order. -/
def plan (baseDir : Bytes) (order : List (Bytes × Bytes)) : List Op :=
  ((dirCalls (dirs baseDir)).map Call.op ++ (fileCalls order).map Call.op)
    ++ [Op.goModInit baseDir]

/-- The call at which an error arises. -/
def GenError.op : GenError → Op
  | .readTemplate p _ => .readFile p
  | .createDir d _ => .mkdirAll d
  | .createFile p _ => .writeFile p
  | .goModInit b _ => .goModInit b

/-- Fail-fast with respect to the planned calls: without error every planned
call was made and succeeded; with an error the calls made are successful
calls followed by the failed call the error comes from, and they are an
initial part of the plan, so that nothing behind the failed call was done. -/
def FailFast (planned : List Op) (calls : List Call) (err : Option GenError) : Prop :=
  match err with
  | none => calls.map Call.op = planned ∧ ∀ c ∈ calls, c.ok = true
  | some e =>
    ∃ pre, calls = pre ++ [⟨e.op, false⟩] ∧ (∀ c ∈ pre, c.ok = true)
      ∧ calls.map Call.op <+: planned

/-- What holds of an entry after a file loop without error: its template was
read, its path is not a directory, its directory exists and is not a regular
file, and the write was not refused. -/
def EntryOk (env : Env) (fs : FS) (e : Bytes × Bytes) : Prop :=
  (∃ c, env.templateFs e.2 = .ok c) ∧ fs.isDir e.1 = false ∧ fs.isDir (Dir e.1) = true
    ∧ fs.isFile (Dir e.1) = false ∧ env.faults.write e.1 = none


/-! ## Path elements and normal forms (used to reason about `Clean`) -/

/-- The elements of a path: the parts between the separators. -/
def splitSep : Bytes → List Bytes
  | [] => [[]]
  | c :: rest =>
    if c = sep then [] :: splitSep rest
    else
      match splitSep rest with
      | [] => [[c]]
      | e :: es => (c :: e) :: es

/-- What one iteration of the main loop of `Clean` does with the element `e`
to the output and to `dotdot`. -/
def stepElem (rooted : Bool) (st : Bytes × Nat) (e : Bytes) : Bytes × Nat :=
  if e = [] ∨ e = [dot] then st
  else if e = [dot, dot] then
    if st.1.length > st.2 then (backtrack st.1 st.2, st.2)
    else if !rooted then
      let out1 := (if st.1.length > 0 then st.1 ++ [sep] else st.1) ++ [dot, dot]
      (out1, out1.length)
    else st
  else
    ((if (rooted && st.1.length != 1) || (!rooted && st.1.length != 0) then st.1 ++ [sep]
      else st.1) ++ e, st.2)

/-- A cleaned path in structured form: rooted or not, the number of leading
`..` elements, and the ordinary elements behind them. -/
structure Norm where
  rooted : Bool
  ups : Nat
  names : List Bytes
  deriving DecidableEq, Repr

/-- An ordinary path element: not empty, not `.`, not `..`, no separator. -/
def Normal (e : Bytes) : Prop := e ≠ [] ∧ e ≠ [dot] ∧ e ≠ [dot, dot] ∧ sep ∉ e

instance (e : Bytes) : Decidable (Normal e) := by unfold Normal; infer_instance

/-- The effect of a path element on a normal form. -/
def absStep (nf : Norm) (e : Bytes) : Norm :=
  if e = [] ∨ e = [dot] then nf
  else if e = [dot, dot] then
    if nf.names ≠ [] then { nf with names := nf.names.dropLast }
    else if !nf.rooted then { nf with ups := nf.ups + 1 }
    else nf
  else { nf with names := nf.names ++ [e] }

/-- The elements of a normal form. -/
def Norm.elems (nf : Norm) : List Bytes := List.replicate nf.ups [dot, dot] ++ nf.names

/-- The output buffer of `Clean` for a normal form. -/
def renderOut (nf : Norm) : Bytes :=
  (if nf.rooted then [sep] else []) ++ stringsJoin [sep] nf.elems

/-- The value of `dotdot` in `Clean` for a normal form. -/
def Norm.dotdot (nf : Norm) : Nat :=
  if nf.rooted then 1 else (stringsJoin [sep] (List.replicate nf.ups [dot, dot])).length

/-- The cleaned path of a normal form: the output buffer, or `.` when it is empty. -/
def render (nf : Norm) : Bytes := if (renderOut nf).length = 0 then [dot] else renderOut nf

/-- The normal forms `Clean` produces: a rooted path has no leading `..`, and
the ordinary elements are ordinary. -/
def Norm.Valid (nf : Norm) : Prop := (nf.rooted = true → nf.ups = 0) ∧ ∀ n ∈ nf.names, Normal n

/-- The normal form of a path. -/
def norm (p : Bytes) : Norm := (splitSep p).foldl absStep ⟨p.head? == some sep, 0, []⟩

/-- The main loop of `Clean` with as many iterations as there are unread bytes. -/
def cleanRun (rooted : Bool) (path out : Bytes) (dotdot : Nat) : Bytes :=
  cleanLoop rooted path.length path out dotdot

/-- A normal form with one more ordinary element at the end. -/
def pushName (nf : Norm) (e : Bytes) : Norm := { nf with names := nf.names ++ [e] }

/-! ## Concrete inputs -/

/-- The project name `demo`. -/
def demo : Bytes := str "demo"

/-- A file system whose calls fail only for reasons visible in its state. -/
def noFaults : Faults := ⟨fun _ => none, fun _ => none⟩

/-- The eight templates named in `templatePaths`. -/
def templateNames : List Bytes :=
  [str "templates/html/index.html", str "templates/css/style.css", str "templates/js/index.js",
    str "templates/lib/htmx.min.js", str "templates/go/userRoutes.go",
    str "templates/go/userHandler.go", str "templates/go/app.go", str "templates/Makefile"]

/-- The error of `embed.FS.ReadFile` for a name that is not embedded. -/
def notExist (name : Bytes) : Bytes := str "open " ++ name ++ str ": file does not exist"

/-- A store holding the eight templates, each with the text `module {AppName}`. -/
def sampleFs : TemplateFs := fun name =>
  if name ∈ templateNames then .ok (str "module " ++ token) else .error (notExist name)

/-- A store holding the eight templates, the one for the `Makefile` empty. -/
def emptyMakefileFs : TemplateFs := fun name =>
  if name = str "templates/Makefile" then .ok []
  else if name ∈ templateNames then .ok (str "module " ++ token)
  else .error (notExist name)

/-- A store holding seven of the eight templates: `templates/Makefile` is missing. -/
def noMakefileFs : TemplateFs := fun name =>
  if name = str "templates/Makefile" then .error (notExist name)
  else if name ∈ templateNames then .ok (str "module " ++ token)
  else .error (notExist name)

/-- An external command that succeeds. -/
def cmdOk : Bytes → Bytes → FS → CmdResult := fun _ _ _ => ⟨false, []⟩

/-- An external command that fails with a message. -/
def cmdFails : Bytes → Bytes → FS → CmdResult :=
  fun _ _ _ => ⟨true, str "go: cannot determine module path for source directory"⟩

/-- The destination paths for the project name `demo`. -/
def demoFiles : List Bytes :=
  [str "demo/views/index.html", str "demo/public/css/style.css", str "demo/public/js/app.js",
    str "demo/public/lib/htmx.min.js", str "demo/routes/userRoutes.go",
    str "demo/controllers/CreateUserHandler.go", str "demo/app.go", str "demo/Makefile"]

/-- The directories of `dirs` for the project name `demo`. -/
def demoDirs : List Bytes :=
  [str "demo/views", str "demo/public/css", str "demo/public/js", str "demo/public/lib",
    str "demo/routes", str "demo/controllers"]

/-- The file system after the directory loop for `demo` on an empty file system. -/
def demoDirState : FS :=
  ⟨[str "demo", str "demo/views", str "demo/public", str "demo/public/css",
    str "demo/public/js", str "demo/public/lib", str "demo/routes", str "demo/controllers"], []⟩


/-! ## `strings.Index`, `strings.Count`, `strings.Replace` -/

theorem HasPrefix_iff (s pre : Bytes) : HasPrefix s pre = true ↔ pre <+: s := by
  unfold HasPrefix
  exact List.isPrefixOf_iff_prefix

theorem Index_nil_of_ne {substr : Bytes} (h : substr ≠ []) : Index [] substr = none := by
  cases substr with
  | nil => exact absurd rfl h
  | cons a t => simp [Index]

/-- The function `Index` returns a position where `substr` starts. -/
theorem Index_some_prefix : ∀ (s substr : Bytes) (i : Nat),
    Index s substr = some i → substr <+: s.drop i := by
  intro s
  induction s with
  | nil =>
    intro substr i h
    cases substr with
    | nil => simp
    | cons a t => simp [Index] at h
  | cons c s ih =>
    intro substr i h
    unfold Index at h
    by_cases hp : HasPrefix (c :: s) substr = true
    · rw [if_pos hp] at h
      cases h
      simpa using (HasPrefix_iff _ _).1 hp
    · rw [if_neg hp] at h
      cases hi : Index s substr with
      | none => rw [hi] at h; simp at h
      | some j =>
        rw [hi] at h
        simp at h
        subst h
        simpa using ih substr j hi

/-- No occurrence of `substr` starts before the position `Index` returns. -/
theorem Index_some_first : ∀ (s substr : Bytes) (i : Nat),
    Index s substr = some i → ∀ k, k < i → ¬ substr <+: s.drop k := by
  intro s
  induction s with
  | nil =>
    intro substr i h k hk
    cases substr with
    | nil => simp [Index] at h; omega
    | cons a t => simp [Index] at h
  | cons c s ih =>
    intro substr i h k hk
    unfold Index at h
    by_cases hp : HasPrefix (c :: s) substr = true
    · rw [if_pos hp] at h
      cases h
      omega
    · rw [if_neg hp] at h
      cases hi : Index s substr with
      | none => rw [hi] at h; simp at h
      | some j =>
        rw [hi] at h
        simp at h
        subst h
        cases k with
        | zero =>
          intro hpre
          exact hp ((HasPrefix_iff _ _).2 (by simpa using hpre))
        | succ k =>
          simpa using ih substr j hi k (by omega)

/-- The function `Index` fails only when `substr` starts nowhere in `s`. -/
theorem Index_none_drop : ∀ (s substr : Bytes),
    Index s substr = none → ∀ k, ¬ substr <+: s.drop k := by
  intro s
  induction s with
  | nil =>
    intro substr h k
    cases substr with
    | nil => simp [Index] at h
    | cons a t => simp
  | cons c s ih =>
    intro substr h k
    unfold Index at h
    by_cases hp : HasPrefix (c :: s) substr = true
    · rw [if_pos hp] at h
      cases h
    · rw [if_neg hp] at h
      have hi : Index s substr = none := by
        cases hi : Index s substr with
        | none => rfl
        | some j => rw [hi] at h; simp at h
      cases k with
      | zero =>
        intro hpre
        exact hp ((HasPrefix_iff _ _).2 (by simpa using hpre))
      | succ k => simpa using ih substr hi k

theorem infix_iff_prefix_drop (l s : Bytes) : l <:+: s ↔ ∃ k, l <+: s.drop k := by
  constructor
  · rintro ⟨a, b, h⟩
    refine ⟨a.length, b, ?_⟩
    rw [← h]
    simp
  · rintro ⟨k, b, h⟩
    refine ⟨s.take k, b, ?_⟩
    rw [List.append_assoc, h, List.take_append_drop]

/-- The function `Index` fails exactly when `substr` does not occur in `s`. -/
theorem Index_eq_none_iff (s substr : Bytes) : Index s substr = none ↔ ¬ substr <:+: s := by
  constructor
  · intro h hin
    obtain ⟨k, hk⟩ := (infix_iff_prefix_drop _ _).1 hin
    exact Index_none_drop s substr h k hk
  · intro h
    cases hi : Index s substr with
    | none => rfl
    | some i =>
      exact absurd ((infix_iff_prefix_drop _ _).2 ⟨i, Index_some_prefix s substr i hi⟩) h

/-- At the position `Index` returns, `s` splits around the occurrence. -/
theorem Index_some_split (s substr : Bytes) (i : Nat) (h : Index s substr = some i) :
    s = s.take i ++ substr ++ s.drop (i + substr.length) := by
  obtain ⟨b, hb⟩ := Index_some_prefix s substr i h
  have h2 : s.drop (i + substr.length) = b := by
    rw [← List.drop_drop, ← hb]
    simp
  rw [h2, List.append_assoc, hb, List.take_append_drop]

theorem Index_some_lt (s substr : Bytes) (i : Nat) (hne : substr ≠ [])
    (h : Index s substr = some i) : i + substr.length ≤ s.length ∧ 0 < substr.length := by
  have hs := congrArg List.length (Index_some_split s substr i h)
  have hpos : 0 < substr.length := List.length_pos.2 hne
  simp at hs
  constructor <;> omega

theorem countLoop_acc (substr : Bytes) : ∀ (fuel : Nat) (s : Bytes) (n : Nat),
    countLoop substr fuel s n = n + countLoop substr fuel s 0 := by
  intro fuel
  induction fuel with
  | zero => intro s n; simp [countLoop]
  | succ f ih =>
    intro s n
    unfold countLoop
    cases Index s substr with
    | none => simp
    | some i =>
      simp only
      rw [ih _ (n + 1), ih _ (0 + 1)]
      omega

/-- More iterations than `len(s)` do not change the result of the counting loop. -/
theorem countLoop_fuel (substr : Bytes) (hne : substr ≠ []) : ∀ (f g : Nat) (s : Bytes) (n : Nat),
    s.length < f → s.length < g → countLoop substr f s n = countLoop substr g s n := by
  intro f
  induction f with
  | zero => intro g s n hf; omega
  | succ f ih =>
    intro g s n hf hg
    cases g with
    | zero => omega
    | succ g =>
      unfold countLoop
      cases hi : Index s substr with
      | none => rfl
      | some i =>
        simp only
        have hl := Index_some_lt s substr i hne hi
        apply ih
        · simp only [List.length_drop]; omega
        · simp only [List.length_drop]; omega

/-- The recursion that `strings.Count` computes. -/
theorem Count_unfold (s substr : Bytes) (hne : substr ≠ []) :
    Count s substr =
      match Index s substr with
      | none => 0
      | some i => 1 + Count (s.drop (i + substr.length)) substr := by
  unfold Count
  rw [countLoop]
  cases hi : Index s substr with
  | none => rfl
  | some i =>
    simp only
    have hl := Index_some_lt s substr i hne hi
    rw [countLoop_acc]
    congr 1
    apply countLoop_fuel substr hne
    · simp only [List.length_drop]; omega
    · simp only [List.length_drop]; omega

theorem Count_eq_zero_iff (s substr : Bytes) (hne : substr ≠ []) :
    Count s substr = 0 ↔ ¬ substr <:+: s := by
  rw [Count_unfold s substr hne, ← Index_eq_none_iff]
  cases Index s substr with
  | none => simp
  | some i => simp

theorem replaceLoop_shift (old new : Bytes) : ∀ (k : Nat) (s : Bytes) (start : Nat) (b : Bytes),
    replaceLoop s old new k start b = b ++ replaceLoop (s.drop start) old new k 0 [] := by
  intro k
  induction k with
  | zero => intro s start b; simp [replaceLoop]
  | succ k ih =>
    intro s start b
    rw [replaceLoop, replaceLoop]
    simp only [List.drop_zero]
    cases Index (s.drop start) old with
    | none => simp
    | some i =>
      simp only
      rw [ih s, ih (s.drop start) (0 + i + old.length)]
      simp [List.drop_drop, Nat.add_comm, Nat.add_left_comm, Nat.add_assoc]

/-- The recursion that `strings.Replace(s, old, new, -1)` computes: copy up
to the first occurrence, write `new`, continue behind the occurrence. -/
theorem Replace_unfold (s old new : Bytes) (hne : old ≠ []) :
    Replace s old new =
      match Index s old with
      | none => s
      | some i => s.take i ++ new ++ Replace (s.drop (i + old.length)) old new := by
  unfold Replace
  by_cases heq : old = new
  · simp only [if_pos heq]
    cases hi : Index s old with
    | none => rfl
    | some i =>
      simp only
      rw [← heq]
      exact Index_some_split s old i hi
  · simp only [if_neg heq]
    rw [Count_unfold s old hne]
    cases hi : Index s old with
    | none => simp
    | some i =>
      simp only
      have h1 : (1 + Count (List.drop (i + old.length) s) old) ≠ 0 := by omega
      rw [if_neg h1, Nat.add_comm 1, replaceLoop, List.drop_zero, hi]
      simp only
      by_cases hc : Count (List.drop (i + old.length) s) old = 0
      · rw [if_pos hc, hc]
        simp [replaceLoop]
      · rw [if_neg hc, replaceLoop_shift]
        simp

/-! ## The split-and-join reading of `Replace` -/

theorem splitScan_skip (sep : Bytes) : ∀ (s : Bytes) (k : Nat) (cur : Bytes),
    splitScan sep s k cur = splitScan sep (s.drop k) 0 cur := by
  intro s
  induction s with
  | nil => intro k cur; cases k <;> simp [splitScan]
  | cons c t ih =>
    intro k cur
    cases k with
    | zero => simp
    | succ k => rw [splitScan, ih]; simp

/-- The scan, read at the first occurrence of the separator. -/
theorem splitScan_unfold (sep : Bytes) (hne : sep ≠ []) : ∀ (s cur : Bytes),
    splitScan sep s 0 cur =
      match Index s sep with
      | none => [cur ++ s]
      | some i => (cur ++ s.take i) :: splitScan sep (s.drop (i + sep.length)) 0 [] := by
  intro s
  induction s with
  | nil => intro cur; rw [Index_nil_of_ne hne]; simp [splitScan]
  | cons c t ih =>
    intro cur
    have hpos : 0 < sep.length := List.length_pos.2 hne
    by_cases hp : sep.isPrefixOf (c :: t) = true
    · have hI : Index (c :: t) sep = some 0 := by
        unfold Index HasPrefix
        rw [if_pos hp]
      rw [hI, splitScan, if_pos hp, splitScan_skip]
      simp only [List.take_zero, List.append_nil, Nat.zero_add]
      have : sep.length = (sep.length - 1) + 1 := by omega
      conv => rhs; rw [this, List.drop_succ_cons]
    · have hI : Index (c :: t) sep = (Index t sep).map (· + 1) := by
        conv => lhs; unfold Index HasPrefix
        rw [if_neg hp]
      rw [hI, splitScan, if_neg hp, ih]
      cases Index t sep with
      | none => simp
      | some i =>
        simp only [Option.map_some', List.take_succ_cons, List.append_assoc,
          List.singleton_append]
        have : i + 1 + sep.length = (i + sep.length) + 1 := by omega
        rw [this, List.drop_succ_cons]

theorem splitScan_ne_nil (sep : Bytes) : ∀ (s : Bytes) (k : Nat) (cur : Bytes),
    splitScan sep s k cur ≠ [] := by
  intro s
  induction s with
  | nil => intro k cur; cases k <;> simp [splitScan]
  | cons c t ih =>
    intro k cur
    cases k with
    | zero =>
      rw [splitScan]
      split
      · simp
      · exact ih _ _
    | succ k => rw [splitScan]; exact ih _ _

theorem joinWith_cons (v p : Bytes) (ps : List Bytes) (h : ps ≠ []) :
    joinWith v (p :: ps) = p ++ v ++ joinWith v ps := by
  cases ps with
  | nil => exact absurd rfl h
  | cons q qs => rfl

/-- Joining the scanned pieces with `v` is what `Replace` builds. -/
theorem joinWith_splitScan (sep v : Bytes) (hne : sep ≠ []) : ∀ (n : Nat) (s cur : Bytes),
    s.length ≤ n → joinWith v (splitScan sep s 0 cur) = cur ++ Replace s sep v := by
  intro n
  induction n with
  | zero =>
    intro s cur hn
    have hs : s = [] := List.length_eq_zero.1 (Nat.le_zero.1 hn)
    subst hs
    rw [splitScan_unfold sep hne, Replace_unfold _ _ _ hne, Index_nil_of_ne hne]
    simp [joinWith]
  | succ n ih =>
    intro s cur hn
    rw [splitScan_unfold sep hne, Replace_unfold _ _ _ hne]
    cases hi : Index s sep with
    | none => simp [joinWith]
    | some i =>
      simp only
      have hl := Index_some_lt s sep i hne hi
      rw [joinWith_cons _ _ _ (splitScan_ne_nil _ _ _ _), ih]
      · simp
      · simp only [List.length_drop]; omega

theorem Replace_eq_join (s sep v : Bytes) (hne : sep ≠ []) :
    Replace s sep v = joinWith v (splitOnToken s sep) := by
  unfold splitOnToken
  rw [joinWith_splitScan sep v hne s.length s [] (Nat.le_refl _)]
  simp

theorem token_ne_nil : token ≠ [] := by decide

/-- The bytes of `token` spell `{AppName}`. -/
theorem token_spelling : token = str "\x7bAppName\x7d" := by decide

/-- Without an occurrence of `old`, `Replace` returns its argument. -/
theorem Replace_of_not_infix (s old new : Bytes) (hne : old ≠ []) (h : ¬ old <:+: s) :
    Replace s old new = s := by
  rw [Replace_unfold s old new hne, (Index_eq_none_iff s old).2 h]

/-! ## Occurrences of the token and of the inserted value after `Replace` -/

/-- An occurrence in `a ++ b` lies in `a`, lies in `b`, or straddles the seam. -/
theorem infix_append_cases (l a b : Bytes) (h : l <:+: a ++ b) :
    l <:+: a ∨ l <:+: b ∨
      ∃ l1 l2, l = l1 ++ l2 ∧ l1 ≠ [] ∧ l2 ≠ [] ∧ l1 <:+ a ∧ l2 <+: b := by
  obtain ⟨x, y, hxy⟩ := h
  rw [List.append_assoc] at hxy
  rcases List.append_eq_append_iff.1 hxy with ⟨a2, ha, hl⟩ | ⟨c, hx, hb⟩
  · rcases List.append_eq_append_iff.1 hl with ⟨m, hm, _⟩ | ⟨c, hlc, hbc⟩
    · left
      exact ⟨x, m, by rw [ha, hm, List.append_assoc]⟩
    · by_cases h1 : a2 = []
      · right; left
        subst h1
        exact ⟨[], y, by simp [hlc, hbc]⟩
      · by_cases h2 : c = []
        · left
          subst h2
          exact ⟨x, [], by simp [hlc, ha]⟩
        · right; right
          exact ⟨a2, c, hlc, h1, h2, ⟨x, ha.symm⟩, ⟨y, hbc.symm⟩⟩
  · right; left
    exact ⟨c, y, by rw [hb, List.append_assoc]⟩

theorem not_infix_take_of_Index (s substr : Bytes) (i : Nat) (hne : substr ≠ [])
    (h : Index s substr = some i) : ¬ substr <:+: s.take i := by
  intro hin
  obtain ⟨k, b, hk⟩ := (infix_iff_prefix_drop _ _).1 hin
  have hpos : 0 < substr.length := List.length_pos.2 hne
  have hlen := congrArg List.length hk
  simp only [List.length_append, List.length_drop, List.length_take] at hlen
  have hki : k < i := by omega
  apply Index_some_first s substr i h k hki
  have h1 : (s.take i).drop k <+: s.drop k := by
    rw [List.drop_take]
    exact List.take_prefix _ _
  exact List.IsPrefix.trans ⟨b, hk⟩ h1

/-- The text `old` does not reappear after the replacement when the inserted
value neither contains `old` nor lies inside it, no non-empty proper final
part of the value starts `old`, and no non-empty proper initial part of the
value ends `old`. -/
theorem Replace_no_occurrence (old name : Bytes) (hne : old ≠ [])
    (hcontains : ¬ old <:+: name) (hinside : ¬ name <:+: old)
    (hfinal : ∀ u l, name = u ++ l → u ≠ [] → l ≠ [] → ¬ l <+: old)
    (hinitial : ∀ l u, name = l ++ u → l ≠ [] → u ≠ [] → ¬ l <:+ old) :
    ∀ (n : Nat) (s : Bytes), s.length ≤ n → ¬ old <:+: Replace s old name := by
  intro n
  induction n using Nat.strong_induction_on with
  | _ n ih =>
    intro s hn
    rw [Replace_unfold s old name hne]
    cases hi : Index s old with
    | none => exact (Index_eq_none_iff s old).1 hi
    | some i =>
      simp only
      have hl := Index_some_lt s old i hne hi
      have hrest : ¬ old <:+: Replace (s.drop (i + old.length)) old name := by
        apply ih (s.length - 1) (by omega)
        simp only [List.length_drop]; omega
      intro hin
      rcases infix_append_cases _ _ _ hin with h1 | h1 | ⟨l1, l2, hl12, hl1, hl2, hs1, _⟩
      · rcases infix_append_cases _ _ _ h1 with h2 | h2 | ⟨m1, m2, hm, _, hm2, _, hq2⟩
        · exact not_infix_take_of_Index s old i hne hi h2
        · exact hcontains h2
        · -- the occurrence ends inside the inserted value
          obtain ⟨u, hu⟩ := hq2
          by_cases hu0 : u = []
          · subst hu0
            rw [List.append_nil] at hu
            apply hinside
            rw [← hu]
            exact ⟨m1, [], by rw [hm]; simp⟩
          · exact hinitial m2 u hu.symm hm2 hu0 ⟨m1, hm.symm⟩
      · exact hrest h1
      · obtain ⟨t, ht⟩ := hs1
        rcases List.append_eq_append_iff.1 ht with ⟨a2, _, hl1a⟩ | ⟨c, _, hnc⟩
        · -- the occurrence covers a whole copy of the inserted value
          apply hinside
          exact ⟨a2, l2, by rw [hl12, hl1a]⟩
        · -- the occurrence starts inside the inserted value
          by_cases hc0 : c = []
          · subst hc0
            rw [List.nil_append] at hnc
            apply hinside
            rw [hnc]
            exact ⟨[], l2, by rw [hl12]; simp⟩
          · exact hfinal c l1 hnc hc0 hl1 ⟨l2, hl12.symm⟩

/-- The condition on final parts, from a check of the finitely many of them. -/
theorem no_suffix_border (name old : Bytes)
    (h : ∀ l ∈ name.tails, l ≠ [] → l.isPrefixOf old = false) :
    ∀ u l, name = u ++ l → u ≠ [] → l ≠ [] → ¬ l <+: old := by
  intro u l hul _ hl hpre
  have hmem : l ∈ name.tails := (List.mem_tails l name).2 ⟨u, hul.symm⟩
  have := h l hmem hl
  rw [List.isPrefixOf_iff_prefix.2 hpre] at this
  exact Bool.noConfusion this

/-- The condition on initial parts, from a check of the finitely many of them. -/
theorem no_prefix_border (name old : Bytes)
    (h : ∀ l ∈ name.inits, l ≠ [] → l.isSuffixOf old = false) :
    ∀ l u, name = l ++ u → l ≠ [] → u ≠ [] → ¬ l <:+ old := by
  intro l u hlu hl _ hsuf
  have hmem : l ∈ name.inits := (List.mem_inits l name).2 ⟨u, hlu.symm⟩
  have := h l hmem hl
  rw [List.isSuffixOf_iff_suffix.2 hsuf] at this
  exact Bool.noConfusion this

theorem Index_of_prefix (s substr : Bytes) (h : substr <+: s) : Index s substr = some 0 := by
  cases s with
  | nil =>
    have : substr = [] := List.prefix_nil.1 h
    subst this
    simp [Index]
  | cons c t =>
    unfold Index
    rw [if_pos ((HasPrefix_iff _ _).2 h)]

/-- Non-overlapping occurrences counted from the left: a string has at least
as many as each of its suffixes. -/
theorem Count_mono_suffix (substr : Bytes) (hne : substr ≠ []) :
    ∀ (n : Nat) (s t : Bytes), s.length ≤ n → t <:+ s → Count t substr ≤ Count s substr := by
  intro n
  induction n using Nat.strong_induction_on with
  | _ n ih =>
    intro s t hn hts
    rw [Count_unfold t substr hne]
    cases hj : Index t substr with
    | none => exact Nat.zero_le _
    | some j =>
      simp only
      obtain ⟨x, hx⟩ := hts
      have hjl := Index_some_lt t substr j hne hj
      have hpre : substr <+: s.drop (x.length + j) := by
        rw [← hx, ← List.drop_drop]
        simpa using Index_some_prefix t substr j hj
      rw [Count_unfold s substr hne]
      cases hi : Index s substr with
      | none =>
        exact absurd ((infix_iff_prefix_drop _ _).2 ⟨_, hpre⟩) ((Index_eq_none_iff _ _).1 hi)
      | some i =>
        simp only
        have hil := Index_some_lt s substr i hne hi
        have hle : i ≤ x.length + j := by
          by_contra hc
          exact Index_some_first s substr i hi (x.length + j) (by omega) hpre
        have hsuf : t.drop (j + substr.length) <:+ s.drop (i + substr.length) := by
          have e : t.drop (j + substr.length)
              = (s.drop (i + substr.length)).drop (x.length + j - i) := by
            rw [List.drop_drop, ← hx]
            have : i + substr.length + (x.length + j - i)
                = x.length + (j + substr.length) := by omega
            rw [this, ← List.drop_drop]
            simp
          rw [e]
          exact List.drop_suffix _ _
        have := ih (s.length - 1) (by omega) (s.drop (i + substr.length))
          (t.drop (j + substr.length)) (by simp only [List.length_drop]; omega) hsuf
        show 1 + Count _ _ ≤ 1 + Count _ _
        omega

theorem Count_append_ge (p name r : Bytes) (hne : name ≠ []) :
    1 + Count r name ≤ Count (p ++ name ++ r) name := by
  have h1 : Count (name ++ r) name = 1 + Count r name := by
    rw [Count_unfold _ _ hne, Index_of_prefix _ _ (List.prefix_append _ _)]
    simp
  rw [← h1, List.append_assoc]
  exact Count_mono_suffix name hne _ _ _ (Nat.le_refl _) (List.suffix_append _ _)

/-- Each replaced occurrence leaves one copy of the inserted value. -/
theorem Count_Replace_ge (old name : Bytes) (hold : old ≠ []) (hname : name ≠ []) :
    ∀ (n : Nat) (s : Bytes), s.length ≤ n → Count s old ≤ Count (Replace s old name) name := by
  intro n
  induction n using Nat.strong_induction_on with
  | _ n ih =>
    intro s hn
    rw [Count_unfold s old hold, Replace_unfold s old name hold]
    cases hi : Index s old with
    | none => exact Nat.zero_le _
    | some i =>
      simp only
      have hl := Index_some_lt s old i hold hi
      have h1 := ih (s.length - 1) (by omega) (s.drop (i + old.length))
        (by simp only [List.length_drop]; omega)
      have h2 := Count_append_ge (s.take i) name (Replace (s.drop (i + old.length)) old name) hname
      show 1 + Count _ _ ≤ Count _ _
      omega



/-! ## `filepath.Clean` element by element -/

theorem length_dropWhile_le (p : UInt8 → Bool) (l : Bytes) : (l.dropWhile p).length ≤ l.length := by
  induction l with
  | nil => simp
  | cons a t ih =>
    rw [List.dropWhile_cons]
    split
    · simp; omega
    · simp

/-- Fuel beyond the length of the unread input does not change the loop. -/
theorem cleanLoop_fuel (rooted : Bool) : ∀ (f g : Nat) (path out : Bytes) (dotdot : Nat),
    path.length ≤ f → path.length ≤ g →
    cleanLoop rooted f path out dotdot = cleanLoop rooted g path out dotdot := by
  intro f
  induction f with
  | zero =>
    intro g path out dotdot hf hg
    have : path = [] := List.length_eq_zero.1 (Nat.le_zero.1 hf)
    subst this
    cases g <;> simp [cleanLoop]
  | succ f ih =>
    intro g path out dotdot hf hg
    cases g with
    | zero =>
      have : path = [] := List.length_eq_zero.1 (Nat.le_zero.1 hg)
      subst this
      simp [cleanLoop]
    | succ g =>
      cases path with
      | nil => simp [cleanLoop]
      | cons c rest =>
        have hr1 : rest.length ≤ f := by simpa using hf
        have hr2 : rest.length ≤ g := by simpa using hg
        have ht1 : rest.tail.length ≤ f := by simp; omega
        have ht2 : rest.tail.length ≤ g := by simp; omega
        simp only [cleanLoop]
        split
        · exact ih _ _ _ _ hr1 hr2
        · split
          · exact ih _ _ _ _ hr1 hr2
          · split
            · split
              · exact ih _ _ _ _ ht1 ht2
              · split
                · exact ih _ _ _ _ ht1 ht2
                · exact ih _ _ _ _ ht1 ht2
            · rename_i hc _ _
              have hd : ((c :: rest).dropWhile (fun b => !IsPathSeparator b)).length
                  ≤ rest.length := by
                rw [List.dropWhile_cons]
                have : (!IsPathSeparator c) = true := by simpa using hc
                rw [if_pos this]
                exact length_dropWhile_le _ _
              exact ih _ _ _ _ (by omega) (by omega)


theorem cleanRun_nil (rooted : Bool) (out : Bytes) (dotdot : Nat) :
    cleanRun rooted [] out dotdot = out := by
  simp [cleanRun, cleanLoop]

/-- One iteration of the main loop of `Clean`. -/
theorem cleanRun_cons (rooted : Bool) (c : UInt8) (rest out : Bytes) (dotdot : Nat) :
    cleanRun rooted (c :: rest) out dotdot =
      if IsPathSeparator c then cleanRun rooted rest out dotdot
      else if c = dot ∧ endsHere rest then cleanRun rooted rest out dotdot
      else if c = dot ∧ rest.head? = some dot ∧ endsHere rest.tail then
        if out.length > dotdot then cleanRun rooted rest.tail (backtrack out dotdot) dotdot
        else if !rooted then
          cleanRun rooted rest.tail ((if out.length > 0 then out ++ [sep] else out) ++ [dot, dot])
            ((if out.length > 0 then out ++ [sep] else out) ++ [dot, dot]).length
        else cleanRun rooted rest.tail out dotdot
      else
        cleanRun rooted ((c :: rest).dropWhile (fun b => !IsPathSeparator b))
          ((if (rooted && out.length != 1) || (!rooted && out.length != 0) then out ++ [sep]
            else out) ++ (c :: rest).takeWhile (fun b => !IsPathSeparator b)) dotdot := by
  have ht : rest.tail.length ≤ rest.length := by simp
  unfold cleanRun
  simp only [List.length_cons, cleanLoop]
  split
  · rfl
  · split
    · rfl
    · split
      · split
        · exact cleanLoop_fuel _ _ _ _ _ _ ht (Nat.le_refl _)
        · split
          · exact cleanLoop_fuel _ _ _ _ _ _ ht (Nat.le_refl _)
          · exact cleanLoop_fuel _ _ _ _ _ _ ht (Nat.le_refl _)
      · rename_i hc _ _
        have hd : ((c :: rest).dropWhile (fun b => !IsPathSeparator b)).length
            ≤ rest.length := by
          rw [List.dropWhile_cons]
          have : (!IsPathSeparator c) = true := by simpa using hc
          rw [if_pos this]
          exact length_dropWhile_le _ _
        exact cleanLoop_fuel _ _ _ _ _ _ hd (Nat.le_refl _)

theorem endsHere_append_of_not_mem (e T : Bytes) (he : sep ∉ e) (h : endsHere (e ++ T) = true) :
    e = [] := by
  cases e with
  | nil => rfl
  | cons x t =>
    exfalso
    apply he
    simp only [List.cons_append, endsHere, IsPathSeparator, beq_iff_eq] at h
    rw [h]
    exact List.mem_cons_self _ _

theorem takeWhile_elem (e T : Bytes) (he : sep ∉ e) (hT : endsHere T = true) :
    (e ++ T).takeWhile (fun b => !IsPathSeparator b) = e := by
  induction e with
  | nil =>
    cases T with
    | nil => rfl
    | cons x t =>
      simp only [endsHere] at hT
      simp [List.takeWhile_cons, hT]
  | cons a t ih =>
    have ha : a ≠ sep := fun h => he (h ▸ List.mem_cons_self _ _)
    have ht : sep ∉ t := fun h => he (List.mem_cons_of_mem _ h)
    simp [List.takeWhile_cons, IsPathSeparator, ha]
    simpa [IsPathSeparator] using ih ht

theorem dropWhile_elem (e T : Bytes) (he : sep ∉ e) (hT : endsHere T = true) :
    (e ++ T).dropWhile (fun b => !IsPathSeparator b) = T := by
  induction e with
  | nil =>
    cases T with
    | nil => rfl
    | cons x t =>
      simp only [endsHere] at hT
      simp [List.dropWhile_cons, hT]
  | cons a t ih =>
    have ha : a ≠ sep := fun h => he (h ▸ List.mem_cons_self _ _)
    have ht : sep ∉ t := fun h => he (List.mem_cons_of_mem _ h)
    simp [List.dropWhile_cons, IsPathSeparator, ha]
    simpa [IsPathSeparator] using ih ht

theorem dot_ne_sep : dot ≠ sep := by decide

/-- The main loop of `Clean` reads one element and applies `stepElem`. -/
theorem cleanRun_elem (rooted : Bool) (e T : Bytes) (he : sep ∉ e) (hT : endsHere T = true)
    (out : Bytes) (dotdot : Nat) :
    cleanRun rooted (e ++ T) out dotdot =
      cleanRun rooted T (stepElem rooted (out, dotdot) e).1 (stepElem rooted (out, dotdot) e).2 := by
  cases e with
  | nil => simp [stepElem]
  | cons c t =>
    have hc : c ≠ sep := fun h => he (h ▸ List.mem_cons_self _ _)
    have ht : sep ∉ t := fun h => he (List.mem_cons_of_mem _ h)
    have hsepc : IsPathSeparator c = false := by simp [IsPathSeparator, hc]
    rw [List.cons_append, cleanRun_cons, hsepc]
    simp only [Bool.false_eq_true, if_false]
    by_cases h1 : c = dot ∧ endsHere (t ++ T) = true
    · have ht0 : t = [] := endsHere_append_of_not_mem t T ht h1.2
      subst ht0
      rw [if_pos h1, h1.1]
      simp [stepElem]
    · rw [if_neg h1]
      by_cases h2 : c = dot ∧ (t ++ T).head? = some dot ∧ endsHere (t ++ T).tail = true
      · obtain ⟨hcd, hhead, htail⟩ := h2
        cases t with
        | nil =>
          exfalso
          cases T with
          | nil => simp at hhead
          | cons x T2 =>
            simp only [List.nil_append, List.head?_cons, Option.some.injEq] at hhead
            simp only [endsHere, IsPathSeparator, beq_iff_eq] at hT
            exact dot_ne_sep (hhead ▸ hT)
        | cons d t2 =>
          simp only [List.cons_append, List.head?_cons, Option.some.injEq] at hhead
          simp only [List.cons_append, List.tail_cons] at htail
          have ht2 : sep ∉ t2 := fun h => ht (List.mem_cons_of_mem _ h)
          have h0 : t2 = [] := endsHere_append_of_not_mem t2 T ht2 htail
          subst h0
          subst hcd
          subst hhead
          simp only [List.cons_append, List.nil_append, List.head?_cons, List.tail_cons,
            true_and, hT, and_self, if_true, stepElem]
          simp
          split
          · rfl
          · split <;> rfl
      · rw [if_neg h2]
        have hne1 : ¬ (c :: t = [] ∨ c :: t = [dot]) := by
          rintro (h | h)
          · simp at h
          · simp only [List.cons.injEq] at h
            apply h1
            rw [h.2]
            exact ⟨h.1, by simpa using hT⟩
        have hne2 : c :: t ≠ [dot, dot] := by
          intro h
          simp only [List.cons.injEq] at h
          apply h2
          rw [h.2]
          exact ⟨h.1, by simp, by simpa using hT⟩
        have e1 := takeWhile_elem (c :: t) T he hT
        have e2 := dropWhile_elem (c :: t) T he hT
        rw [List.cons_append] at e1 e2
        rw [e1, e2]
        simp only [stepElem, if_neg hne1, if_neg hne2]

/-- The main loop of `Clean` folds `stepElem` over the elements of the path. -/
theorem cleanRun_join (rooted : Bool) : ∀ (es : List Bytes), (∀ e ∈ es, sep ∉ e) →
    ∀ (out : Bytes) (dotdot : Nat),
    cleanRun rooted (stringsJoin [sep] es) out dotdot
      = (es.foldl (stepElem rooted) (out, dotdot)).1 := by
  intro es
  induction es with
  | nil => intro _ out dotdot; simp [stringsJoin, cleanRun_nil]
  | cons e rest ih =>
    intro hes out dotdot
    have he : sep ∉ e := hes e (List.mem_cons_self _ _)
    have hrest : ∀ x ∈ rest, sep ∉ x := fun x hx => hes x (List.mem_cons_of_mem _ hx)
    cases rest with
    | nil =>
      have := cleanRun_elem rooted e [] he rfl out dotdot
      simp only [List.append_nil] at this
      simp [stringsJoin, this, cleanRun_nil]
    | cons f r =>
      have h1 : stringsJoin [sep] (e :: f :: r) = e ++ (sep :: stringsJoin [sep] (f :: r)) := by
        simp [stringsJoin]
      rw [h1, cleanRun_elem rooted e _ he (by simp [endsHere, IsPathSeparator]), cleanRun_cons]
      simp only [IsPathSeparator, beq_self_eq_true, if_true]
      rw [ih hrest]
      simp [List.foldl_cons]



/-! ## Elements of a path -/

theorem splitSep_ne_nil : ∀ p : Bytes, splitSep p ≠ [] := by
  intro p
  induction p with
  | nil => simp [splitSep]
  | cons c rest ih =>
    unfold splitSep
    split
    · simp
    · split <;> simp

theorem stringsJoin_cons (s e : Bytes) (es : List Bytes) (h : es ≠ []) :
    stringsJoin s (e :: es) = e ++ s ++ stringsJoin s es := by
  cases es with
  | nil => exact absurd rfl h
  | cons f r => rfl

theorem stringsJoin_concat (s e : Bytes) : ∀ (es : List Bytes), es ≠ [] →
    stringsJoin s (es ++ [e]) = stringsJoin s es ++ s ++ e := by
  intro es
  induction es with
  | nil => intro h; exact absurd rfl h
  | cons a r ih =>
    intro _
    cases r with
    | nil => simp [stringsJoin]
    | cons b r2 =>
      have h1 : a :: b :: r2 ++ [e] = a :: ((b :: r2) ++ [e]) := rfl
      rw [h1, stringsJoin_cons s a ((b :: r2) ++ [e]) (by simp), ih (by simp),
        stringsJoin_cons s a (b :: r2) (by simp)]
      simp

/-- Joining the elements of a path by the separator gives the path back. -/
theorem stringsJoin_splitSep : ∀ p : Bytes, stringsJoin [sep] (splitSep p) = p := by
  intro p
  induction p with
  | nil => rfl
  | cons c rest ih =>
    unfold splitSep
    by_cases hc : c = sep
    · rw [if_pos hc, stringsJoin_cons _ _ _ (splitSep_ne_nil rest), ih, hc]
      rfl
    · rw [if_neg hc]
      cases hs : splitSep rest with
      | nil => exact absurd hs (splitSep_ne_nil rest)
      | cons e es =>
        rw [hs] at ih
        simp only
        cases es with
        | nil =>
          simp only [stringsJoin] at ih ⊢
          rw [ih]
        | cons f r =>
          rw [stringsJoin_cons _ _ _ (by simp)] at ih ⊢
          rw [← ih]
          simp

theorem splitSep_sepfree : ∀ (p e : Bytes), e ∈ splitSep p → sep ∉ e := by
  intro p
  induction p with
  | nil => intro e he; simp [splitSep] at he; subst he; simp
  | cons c rest ih =>
    intro e he
    unfold splitSep at he
    by_cases hc : c = sep
    · rw [if_pos hc] at he
      rcases List.mem_cons.1 he with h | h
      · subst h; simp
      · exact ih e h
    · rw [if_neg hc] at he
      cases hs : splitSep rest with
      | nil => exact absurd hs (splitSep_ne_nil rest)
      | cons x es =>
        rw [hs] at he ih
        simp only at he
        rcases List.mem_cons.1 he with h | h
        · subst h
          intro hmem
          rcases List.mem_cons.1 hmem with h2 | h2
          · exact hc h2.symm
          · exact ih x (List.mem_cons_self _ _) h2
        · exact ih e (List.mem_cons_of_mem _ h)

theorem splitSep_sep_cons (p : Bytes) : splitSep (sep :: p) = [] :: splitSep p := by
  simp [splitSep]

theorem splitSep_cons_ne (c : UInt8) (p e : Bytes) (es : List Bytes) (hc : c ≠ sep)
    (h : splitSep p = e :: es) : splitSep (c :: p) = (c :: e) :: es := by
  rw [splitSep, if_neg hc, h]

/-- A path without separator is its only element. -/
theorem splitSep_single : ∀ e : Bytes, sep ∉ e → splitSep e = [e] := by
  intro e
  induction e with
  | nil => intro _; rfl
  | cons c t ih =>
    intro h
    have hc : c ≠ sep := fun hh => h (hh ▸ List.mem_cons_self _ _)
    have ht : sep ∉ t := fun hh => h (List.mem_cons_of_mem _ hh)
    unfold splitSep
    rw [if_neg hc, ih ht]

/-- The elements of `p/q` are those of `p` followed by those of `q`. -/
theorem splitSep_append_sep : ∀ (p q : Bytes),
    splitSep (p ++ sep :: q) = splitSep p ++ splitSep q := by
  intro p
  induction p with
  | nil => intro q; simp [splitSep]
  | cons c rest ih =>
    intro q
    rw [List.cons_append]
    by_cases hc : c = sep
    · subst hc
      rw [splitSep_sep_cons, splitSep_sep_cons, ih]
      rfl
    · cases hs : splitSep rest with
      | nil => exact absurd hs (splitSep_ne_nil rest)
      | cons x es =>
        rw [splitSep_cons_ne c rest x es hc hs,
          splitSep_cons_ne c (rest ++ sep :: q) x (es ++ splitSep q) hc (by rw [ih, hs]; rfl)]
        rfl

/-- Splitting a joined list of separator-free elements gives the list back. -/
theorem splitSep_stringsJoin : ∀ (es : List Bytes), es ≠ [] → (∀ e ∈ es, sep ∉ e) →
    splitSep (stringsJoin [sep] es) = es := by
  intro es
  induction es with
  | nil => intro h; exact absurd rfl h
  | cons e rest ih =>
    intro _ hes
    have he : sep ∉ e := hes e (List.mem_cons_self _ _)
    have hrest : ∀ x ∈ rest, sep ∉ x := fun x hx => hes x (List.mem_cons_of_mem _ hx)
    cases rest with
    | nil => simpa [stringsJoin] using splitSep_single e he
    | cons f r =>
      rw [stringsJoin_cons _ _ _ (by simp)]
      have : e ++ [sep] ++ stringsJoin [sep] (f :: r) = e ++ sep :: stringsJoin [sep] (f :: r) := by
        simp
      rw [this, splitSep_append_sep, splitSep_single e he, ih (by simp) hrest]
      rfl

/-! ## The `..` case: dropping the last element of the output -/

theorem backtrackLoop_stop (buf : Bytes) (dotdot w : Nat)
    (h : w ≤ dotdot ∨ buf.get? w = some sep) : backtrackLoop buf dotdot w = w := by
  cases w with
  | zero => rfl
  | succ w =>
    unfold backtrackLoop
    rw [if_neg]
    rintro ⟨h1, h2⟩
    rcases h with h | h
    · omega
    · exact h2 h

theorem backtrackLoop_run (buf : Bytes) (dotdot a : Nat) (hdd : dotdot ≤ a)
    (hstop : a ≤ dotdot ∨ buf.get? a = some sep) : ∀ k : Nat,
    (∀ i, a < i → i ≤ a + k → buf.get? i ≠ some sep) →
    backtrackLoop buf dotdot (a + k) = a := by
  intro k
  induction k with
  | zero => intro _; exact backtrackLoop_stop buf dotdot a hstop
  | succ k ih =>
    intro h
    have e : a + (k + 1) = (a + k) + 1 := by omega
    rw [e]
    unfold backtrackLoop
    rw [if_pos ⟨by omega, h (a + k + 1) (by omega) (by omega)⟩]
    exact ih (fun i h1 h2 => h i h1 (by omega))

/-- Backtracking removes the bytes behind the last separator, and the
separator, but never goes below `dotdot`. -/
theorem backtrack_spec (A : Bytes) (b : UInt8) (t : Bytes) (dotdot : Nat)
    (hdd : dotdot ≤ A.length) (hstop : dotdot = A.length ∨ b = sep) (ht : sep ∉ t) :
    backtrack (A ++ b :: t) dotdot = A := by
  unfold backtrack
  have hlen : (A ++ b :: t).length - 1 = A.length + t.length := by simp
  rw [hlen, backtrackLoop_run (A ++ b :: t) dotdot A.length hdd]
  · simp
  · rcases hstop with h | h
    · left; omega
    · right
      subst h
      rw [List.get?_eq_getElem?, List.getElem?_append_right (Nat.le_refl _)]
      simp
  · intro i h1 h2 hget
    obtain ⟨j, hj⟩ : ∃ j, i = A.length + (j + 1) := ⟨i - A.length - 1, by omega⟩
    subst hj
    rw [List.get?_eq_getElem?, List.getElem?_append_right (by omega)] at hget
    have e : A.length + (j + 1) - A.length = j + 1 := by omega
    rw [e, List.getElem?_cons_succ] at hget
    exact ht (List.mem_iff_getElem?.2 ⟨j, hget⟩)



/-! ## The output of `Clean` in terms of normal forms -/

theorem stringsJoin_snoc (s x : Bytes) (L : List Bytes) :
    stringsJoin s (L ++ [x]) = (if L = [] then [] else stringsJoin s L ++ s) ++ x := by
  by_cases h : L = []
  · subst h; simp [stringsJoin]
  · rw [if_neg h, stringsJoin_concat s x L h]

theorem stringsJoin_ne_nil (s : Bytes) : ∀ (L : List Bytes), L ≠ [] → (∀ e ∈ L, e ≠ []) →
    stringsJoin s L ≠ [] := by
  intro L hL hne
  cases L with
  | nil => exact absurd rfl hL
  | cons a r =>
    have ha : a ≠ [] := hne a (List.mem_cons_self _ _)
    cases r with
    | nil => simpa [stringsJoin] using ha
    | cons b r2 =>
      rw [stringsJoin_cons _ _ _ (by simp)]
      simp [ha]

theorem stringsJoin_append_length_le (s : Bytes) (U : List Bytes) : ∀ (N : List Bytes),
    (stringsJoin s U).length ≤ (stringsJoin s (U ++ N)).length := by
  intro N
  induction N using List.reverseRecOn with
  | nil => simp
  | append_singleton N x ih =>
    rw [← List.append_assoc, stringsJoin_snoc]
    by_cases h : U ++ N = []
    · have hU : U = [] := (List.append_eq_nil.1 h).1
      subst hU
      simp [stringsJoin]
    · rw [if_neg h]
      simp only [List.length_append]
      omega

theorem Normal.ne_nil {e : Bytes} (h : Normal e) : e ≠ [] := h.1

theorem Normal.sepfree {e : Bytes} (h : Normal e) : sep ∉ e := h.2.2.2

theorem Norm.Valid.elems_ne_nil {nf : Norm} (hv : nf.Valid) : ∀ e ∈ nf.elems, e ≠ [] := by
  intro e he
  rcases List.mem_append.1 he with h | h
  · rw [List.eq_of_mem_replicate h]; simp
  · exact (hv.2 e h).ne_nil

theorem Norm.Valid.elems_sepfree {nf : Norm} (hv : nf.Valid) : ∀ e ∈ nf.elems, sep ∉ e := by
  intro e he
  rcases List.mem_append.1 he with h | h
  · rw [List.eq_of_mem_replicate h]; decide
  · exact (hv.2 e h).sepfree

/-- With an ordinary element on top, `..` backtracks and removes it. -/
theorem sim_pop (rooted : Bool) (ups : Nat) (ns : List Bytes) (x : Bytes)
    (hv : Norm.Valid ⟨rooted, ups, ns ++ [x]⟩) :
    (renderOut ⟨rooted, ups, ns ++ [x]⟩).length > Norm.dotdot ⟨rooted, ups, ns ++ [x]⟩ ∧
    backtrack (renderOut ⟨rooted, ups, ns ++ [x]⟩) (Norm.dotdot ⟨rooted, ups, ns ++ [x]⟩)
      = renderOut ⟨rooted, ups, ns⟩ := by
  have hx : Normal x := hv.2 x (by simp)
  obtain ⟨c, t, hct⟩ : ∃ c t, x = c :: t := by
    cases x with
    | nil => exact absurd rfl hx.ne_nil
    | cons c t => exact ⟨c, t, rfl⟩
  have hsx : sep ∉ x := hx.sepfree
  have hst : sep ∉ t := fun h => hsx (hct ▸ List.mem_cons_of_mem _ h)
  have hout : renderOut ⟨rooted, ups, ns ++ [x]⟩
      = (if rooted then [sep] else [])
        ++ (if List.replicate ups [dot, dot] ++ ns = [] then []
            else stringsJoin [sep] (List.replicate ups [dot, dot] ++ ns) ++ [sep]) ++ x := by
    simp only [renderOut, Norm.elems]
    rw [← List.append_assoc, stringsJoin_snoc, List.append_assoc]
  have hle := stringsJoin_append_length_le [sep] (List.replicate ups [dot, dot]) ns
  rw [hout]
  simp only [renderOut, Norm.elems, Norm.dotdot]
  by_cases hL : List.replicate ups [dot, dot] ++ ns = []
  · have hups : ups = 0 := by
      have := (List.append_eq_nil.1 hL).1
      simpa using this
    have hns : ns = [] := (List.append_eq_nil.1 hL).2
    subst hups
    subst hns
    simp only [List.replicate_zero, List.append_nil, if_true, List.nil_append, stringsJoin]
    constructor
    · cases rooted <;> simp [hct]
    · rw [hct]
      apply backtrack_spec _ _ _ _ _ _ hst
      · cases rooted <;> simp
      · left; cases rooted <;> simp
  · rw [if_neg hL]
    constructor
    · cases rooted
      · simp only [Bool.false_eq_true, if_false, List.nil_append, List.length_append]
        simp only [Bool.false_eq_true, if_false] at hle
        have : 0 < x.length := List.length_pos.2 hx.ne_nil
        omega
      · simp
    · have e1 : (if rooted = true then [sep] else [])
          ++ (stringsJoin [sep] (List.replicate ups [dot, dot] ++ ns) ++ [sep]) ++ x
          = ((if rooted = true then [sep] else [])
            ++ stringsJoin [sep] (List.replicate ups [dot, dot] ++ ns)) ++ sep :: x := by
        simp
      rw [e1]
      apply backtrack_spec _ _ _ _ _ (Or.inr rfl) hsx
      cases rooted
      · simpa using hle
      · simp

/-- Without ordinary elements the output ends where `dotdot` points. -/
theorem sim_bottom (rooted : Bool) (ups : Nat) (h : rooted = true → ups = 0) :
    (renderOut ⟨rooted, ups, []⟩).length = Norm.dotdot ⟨rooted, ups, []⟩ := by
  cases rooted
  · simp [renderOut, Norm.elems, Norm.dotdot]
  · have := h rfl
    subst this
    simp [renderOut, Norm.elems, Norm.dotdot, stringsJoin]

/-- A `..` that cannot backtrack in a path that is not rooted is appended. -/
theorem sim_up (ups : Nat) :
    (if (renderOut ⟨false, ups, []⟩).length > 0 then renderOut ⟨false, ups, []⟩ ++ [sep]
      else renderOut ⟨false, ups, []⟩) ++ [dot, dot] = renderOut ⟨false, ups + 1, []⟩ ∧
    (renderOut ⟨false, ups + 1, []⟩).length = Norm.dotdot ⟨false, ups + 1, []⟩ := by
  refine ⟨?_, sim_bottom false (ups + 1) (by simp)⟩
  simp only [renderOut, Norm.elems, Bool.false_eq_true, if_false, List.nil_append,
    List.append_nil]
  rw [List.replicate_succ', stringsJoin_snoc]
  cases ups with
  | zero => simp [stringsJoin]
  | succ n =>
    have hne : List.replicate (n + 1) [dot, dot] ≠ [] := by simp
    have h2 : stringsJoin [sep] (List.replicate (n + 1) [dot, dot]) ≠ [] :=
      stringsJoin_ne_nil _ _ hne (fun e he => by rw [List.eq_of_mem_replicate he]; simp)
    rw [if_neg hne, if_pos (List.length_pos.2 h2)]

/-- An ordinary element is appended, behind a separator unless it comes first. -/
theorem sim_push (nf : Norm) (hv : nf.Valid) (e : Bytes) :
    (if (nf.rooted && (renderOut nf).length != 1) || (!nf.rooted && (renderOut nf).length != 0)
      then renderOut nf ++ [sep] else renderOut nf) ++ e
      = renderOut { nf with names := nf.names ++ [e] } := by
  obtain ⟨rooted, ups, names⟩ := nf
  have hne := hv.elems_ne_nil
  simp only [renderOut, Norm.elems] at hne ⊢
  rw [← List.append_assoc, stringsJoin_snoc]
  by_cases hL : List.replicate ups [dot, dot] ++ names = []
  · rw [hL]
    cases rooted <;> simp [stringsJoin]
  · have h2 : stringsJoin [sep] (List.replicate ups [dot, dot] ++ names) ≠ [] :=
      stringsJoin_ne_nil _ _ hL hne
    have h3 : 0 < (stringsJoin [sep] (List.replicate ups [dot, dot] ++ names)).length :=
      List.length_pos.2 h2
    rw [if_neg hL]
    cases rooted
    · have : ((stringsJoin [sep] (List.replicate ups [dot, dot] ++ names)).length != 0) = true := by
        simp only [bne_iff_ne, ne_eq]; omega
      simp [this]
    · simp [h2]



theorem absStep_rooted (nf : Norm) (e : Bytes) : (absStep nf e).rooted = nf.rooted := by
  unfold absStep
  split
  · rfl
  · split
    · split
      · rfl
      · split <;> rfl
    · rfl

theorem absStep_valid (nf : Norm) (hv : nf.Valid) (e : Bytes) (he : sep ∉ e) :
    (absStep nf e).Valid := by
  unfold absStep
  split
  · exact hv
  · split
    · split
      · exact ⟨hv.1, fun n hn => hv.2 n (List.mem_of_mem_dropLast hn)⟩
      · split
        · rename_i h
          refine ⟨fun hr => ?_, hv.2⟩
          simp only at hr
          rw [hr] at h
          simp at h
        · exact hv
    · rename_i h1 h2
      refine ⟨hv.1, fun n hn => ?_⟩
      rcases List.mem_append.1 hn with h | h
      · exact hv.2 n h
      · simp only [List.mem_singleton] at h
        subst h
        exact ⟨fun h => h1 (Or.inl h), fun h => h1 (Or.inr h), h2, he⟩

/-- One element: the loop of `Clean` and `absStep` agree. -/
theorem stepElem_sim (nf : Norm) (hv : nf.Valid) (e : Bytes) :
    stepElem nf.rooted (renderOut nf, nf.dotdot) e
      = (renderOut (absStep nf e), (absStep nf e).dotdot) := by
  unfold stepElem absStep
  by_cases h1 : e = [] ∨ e = [dot]
  · rw [if_pos h1, if_pos h1]
  · rw [if_neg h1, if_neg h1]
    by_cases h2 : e = [dot, dot]
    · rw [if_pos h2, if_pos h2]
      obtain ⟨rooted, ups, names⟩ := nf
      rcases List.eq_nil_or_concat names with h0 | ⟨ns, x, hx⟩
      · subst h0
        have hb := sim_bottom rooted ups hv.1
        simp only [ne_eq, not_true_eq_false, if_false]
        rw [if_neg (by omega)]
        cases rooted
        · have hu := sim_up ups
          simp only [Bool.not_false, if_true]
          rw [hu.1, hu.2]
        · simp
      · rw [List.concat_eq_append] at hx
        subst hx
        have hp := sim_pop rooted ups ns x hv
        simp only
        rw [if_pos hp.1, if_pos (by simp), hp.2]
        simp [Norm.dotdot]
    · rw [if_neg h2, if_neg h2]
      simp only
      rw [sim_push nf hv e]
      rfl

/-- All elements: the loop of `Clean` computes the output of the normal form. -/
theorem foldl_stepElem_sim : ∀ (es : List Bytes) (nf : Norm), nf.Valid → (∀ e ∈ es, sep ∉ e) →
    es.foldl (stepElem nf.rooted) (renderOut nf, nf.dotdot)
      = (renderOut (es.foldl absStep nf), (es.foldl absStep nf).dotdot)
    ∧ (es.foldl absStep nf).Valid ∧ (es.foldl absStep nf).rooted = nf.rooted := by
  intro es
  induction es with
  | nil => intro nf hv _; exact ⟨rfl, hv, rfl⟩
  | cons e rest ih =>
    intro nf hv hes
    have he : sep ∉ e := hes e (List.mem_cons_self _ _)
    have hrest : ∀ x ∈ rest, sep ∉ x := fun x hx => hes x (List.mem_cons_of_mem _ hx)
    have hv2 := absStep_valid nf hv e he
    have hr := absStep_rooted nf e
    obtain ⟨i1, i2, i3⟩ := ih (absStep nf e) hv2 hrest
    simp only [List.foldl_cons]
    rw [stepElem_sim nf hv e, ← hr]
    exact ⟨i1, i2, by rw [i3]⟩

theorem norm_valid (p : Bytes) : (norm p).Valid :=
  (foldl_stepElem_sim (splitSep p) ⟨p.head? == some sep, 0, []⟩
    ⟨fun _ => rfl, fun _ h => by simp at h⟩ (splitSep_sepfree p)).2.1

/-- The function `filepath.Clean` returns the rendering of the normal form of its argument. -/
theorem Clean_eq_render (p : Bytes) : Clean p = render (norm p) := by
  cases p with
  | nil => decide
  | cons c rest =>
    unfold Clean
    simp only
    by_cases hc : c = sep
    · subst hc
      have hsep : IsPathSeparator sep = true := by simp [IsPathSeparator]
      rw [if_pos hsep]
      have h1 : cleanLoop true rest.length rest [sep] 1 = cleanRun true rest [sep] 1 := rfl
      have hinit : Norm.Valid ⟨true, 0, []⟩ := ⟨fun _ => rfl, fun _ h => by simp at h⟩
      have h2 := foldl_stepElem_sim (splitSep rest) ⟨true, 0, []⟩ hinit (splitSep_sepfree rest)
      have h3 : cleanRun true rest [sep] 1
          = renderOut ((splitSep rest).foldl absStep ⟨true, 0, []⟩) := by
        conv => lhs; rw [← stringsJoin_splitSep rest]
        rw [cleanRun_join true _ (splitSep_sepfree rest)]
        have := h2.1
        simp only [renderOut, Norm.elems, Norm.dotdot, List.replicate_zero, List.nil_append,
          if_true, stringsJoin, List.append_nil] at this
        rw [this]
        simp [renderOut, Norm.elems]
      have h4 : norm (sep :: rest) = (splitSep rest).foldl absStep ⟨true, 0, []⟩ := by
        simp [norm, splitSep_sep_cons, absStep]
      rw [h1, h3, h4]
      rfl
    · have hsep : IsPathSeparator c = false := by simp [IsPathSeparator, hc]
      rw [hsep]
      simp only [Bool.false_eq_true, if_false]
      have h1 : cleanLoop false (c :: rest).length (c :: rest) [] 0
          = cleanRun false (c :: rest) [] 0 := rfl
      have hinit : Norm.Valid ⟨false, 0, []⟩ := ⟨fun _ => rfl, fun _ h => by simp at h⟩
      have h2 := foldl_stepElem_sim (splitSep (c :: rest)) ⟨false, 0, []⟩ hinit
        (splitSep_sepfree (c :: rest))
      have h3 : cleanRun false (c :: rest) [] 0
          = renderOut ((splitSep (c :: rest)).foldl absStep ⟨false, 0, []⟩) := by
        conv => lhs; rw [← stringsJoin_splitSep (c :: rest)]
        rw [cleanRun_join false _ (splitSep_sepfree (c :: rest))]
        have := h2.1
        simp only [renderOut, Norm.elems, Norm.dotdot, List.replicate_zero, List.nil_append,
          Bool.false_eq_true, if_false, stringsJoin, List.length_nil] at this
        rw [this]
        simp [renderOut, Norm.elems]
      have h4 : norm (c :: rest) = (splitSep (c :: rest)).foldl absStep ⟨false, 0, []⟩ := by
        have : ((c :: rest).head? == some sep) = false := by simp [hc]
        simp only [norm, this]
      rw [h1, h3, h4]
      rfl



/-! ## `Clean` is idempotent; `Join` and `Dir` on cleaned paths -/

theorem absStep_normal (nf : Norm) (e : Bytes) (he : Normal e) : absStep nf e = pushName nf e := by
  unfold absStep
  rw [if_neg (by rintro (h | h); exact he.1 h; exact he.2.1 h), if_neg he.2.2.1]
  rfl

theorem foldl_absStep_ups : ∀ (n k : Nat),
    (List.replicate n [dot, dot]).foldl absStep ⟨false, k, []⟩ = ⟨false, k + n, []⟩ := by
  intro n
  induction n with
  | zero => intro k; rfl
  | succ n ih =>
    intro k
    rw [List.replicate_succ, List.foldl_cons]
    have : absStep ⟨false, k, []⟩ [dot, dot] = ⟨false, k + 1, []⟩ := by
      simp [absStep]
    rw [this, ih]
    congr 1
    omega

theorem foldl_absStep_names : ∀ (names : List Bytes) (nf : Norm), (∀ n ∈ names, Normal n) →
    names.foldl absStep nf = { nf with names := nf.names ++ names } := by
  intro names
  induction names with
  | nil => intro nf _; simp
  | cons a r ih =>
    intro nf h
    rw [List.foldl_cons, absStep_normal nf a (h a (List.mem_cons_self _ _)),
      ih _ (fun n hn => h n (List.mem_cons_of_mem _ hn))]
    simp [pushName]

theorem foldl_absStep_elems (nf : Norm) (hv : nf.Valid) :
    nf.elems.foldl absStep ⟨nf.rooted, 0, []⟩ = nf := by
  obtain ⟨rooted, ups, names⟩ := nf
  simp only [Norm.elems, List.foldl_append]
  cases rooted
  · rw [foldl_absStep_ups, foldl_absStep_names _ _ hv.2]
    simp
  · have := hv.1 rfl
    simp only at this
    subst this
    rw [List.replicate_zero, List.foldl_nil, foldl_absStep_names _ _ hv.2]
    simp

theorem head_stringsJoin (e : Bytes) (r : List Bytes) (he : e ≠ []) :
    (stringsJoin [sep] (e :: r)).head? = e.head? := by
  cases e with
  | nil => exact absurd rfl he
  | cons c t =>
    cases r with
    | nil => rfl
    | cons f r2 => rw [stringsJoin_cons _ _ _ (by simp)]; rfl

theorem head_ne_sep (e : Bytes) (hs : sep ∉ e) : (e.head? == some sep) = false := by
  cases e with
  | nil => rfl
  | cons c t =>
    have : c ≠ sep := fun h => hs (h ▸ List.mem_cons_self _ _)
    simp [this]

theorem elems_eq_nil (nf : Norm) (h : nf.elems = []) : nf.ups = 0 ∧ nf.names = [] := by
  unfold Norm.elems at h
  have := List.append_eq_nil.1 h
  exact ⟨by simpa using this.1, this.2⟩

/-- The normal form of a rendered normal form is the normal form itself. -/
theorem norm_render (nf : Norm) (hv : nf.Valid) : norm (render nf) = nf := by
  by_cases hE : nf.elems = []
  · obtain ⟨h1, h2⟩ := elems_eq_nil nf hE
    obtain ⟨rooted, ups, names⟩ := nf
    simp only at h1 h2
    subst h1
    subst h2
    cases rooted <;> decide
  · have hJ : stringsJoin [sep] nf.elems ≠ [] := stringsJoin_ne_nil _ _ hE hv.elems_ne_nil
    have hro : renderOut nf ≠ [] := by
      unfold renderOut
      simp [hJ]
    have hr : render nf = renderOut nf := by
      unfold render
      rw [if_neg (by simpa using hro)]
    rw [hr]
    have hsplit : splitSep (stringsJoin [sep] nf.elems) = nf.elems :=
      splitSep_stringsJoin _ hE hv.elems_sepfree
    cases hrt : nf.rooted
    · have h1 : renderOut nf = stringsJoin [sep] nf.elems := by simp [renderOut, hrt]
      have h2 : ((stringsJoin [sep] nf.elems).head? == some sep) = false := by
        cases hel : nf.elems with
        | nil => exact absurd hel hE
        | cons e r =>
          have he : e ∈ nf.elems := by rw [hel]; exact List.mem_cons_self _ _
          rw [head_stringsJoin e r (hv.elems_ne_nil e he)]
          exact head_ne_sep e (hv.elems_sepfree e he)
      unfold norm
      rw [h1, h2, hsplit]
      have := foldl_absStep_elems nf hv
      rw [hrt] at this
      exact this
    · have h1 : renderOut nf = sep :: stringsJoin [sep] nf.elems := by simp [renderOut, hrt]
      unfold norm
      rw [h1, splitSep_sep_cons, hsplit]
      have := foldl_absStep_elems nf hv
      rw [hrt] at this
      simpa [absStep] using this

/-- The function `filepath.Clean` is idempotent. -/
theorem Clean_idem (p : Bytes) : Clean (Clean p) = Clean p := by
  rw [Clean_eq_render p, Clean_eq_render (render (norm p)), norm_render _ (norm_valid p)]

theorem pushName_valid (nf : Norm) (hv : nf.Valid) (e : Bytes) (he : Normal e) :
    (pushName nf e).Valid := by
  rw [← absStep_normal nf e he]
  exact absStep_valid nf hv e he.sepfree

/-- The function `filepath.Join(d, leaf)` for an ordinary element `leaf`: the normal form
of `d` with `leaf` appended. -/
theorem Join_eq_render (d leaf : Bytes) (hl : Normal leaf) :
    Join [d, leaf] = render (pushName (norm d) leaf) := by
  by_cases hd : d = []
  · subst hd
    have h1 : Join [[], leaf] = Clean leaf := by
      simp [Join, stringsJoin, hl.ne_nil]
    have h2 : norm leaf = pushName (norm []) leaf := by
      unfold norm
      rw [splitSep_single leaf hl.sepfree, head_ne_sep leaf hl.sepfree]
      simp only [List.foldl_cons, List.foldl_nil]
      rw [absStep_normal _ _ hl]
      rfl
    rw [h1, Clean_eq_render, h2]
  · have h1 : Join [d, leaf] = Clean (d ++ sep :: leaf) := by
      simp [Join, stringsJoin, hd]
    have h2 : norm (d ++ sep :: leaf) = pushName (norm d) leaf := by
      have hh : (d ++ sep :: leaf).head? = d.head? := by
        cases d with
        | nil => exact absurd rfl hd
        | cons c t => rfl
      unfold norm
      rw [splitSep_append_sep, splitSep_single leaf hl.sepfree, hh, List.foldl_append]
      simp only [List.foldl_cons, List.foldl_nil]
      exact absStep_normal _ _ hl
    rw [h1, Clean_eq_render, h2]

theorem norm_Join (d leaf : Bytes) (hl : Normal leaf) :
    norm (Join [d, leaf]) = pushName (norm d) leaf := by
  rw [Join_eq_render d leaf hl, norm_render _ (pushName_valid _ (norm_valid d) leaf hl)]

/-- A path made by `filepath.Join` is already clean. -/
theorem Clean_Join (d leaf : Bytes) (hl : Normal leaf) : Clean (Join [d, leaf]) = Join [d, leaf] := by
  rw [Join_eq_render d leaf hl, Clean_eq_render,
    norm_render _ (pushName_valid _ (norm_valid d) leaf hl)]

/-- Paths joined from different last elements are different. -/
theorem Join_ne_of_leaf_ne (d1 d2 leaf1 leaf2 : Bytes) (h1 : Normal leaf1) (h2 : Normal leaf2)
    (hne : leaf1 ≠ leaf2) : Join [d1, leaf1] ≠ Join [d2, leaf2] := by
  intro h
  have := congrArg norm h
  rw [norm_Join d1 leaf1 h1, norm_Join d2 leaf2 h2] at this
  have h3 := congrArg (fun nf => nf.names.getLast?) this
  simp [pushName] at h3
  exact hne h3



theorem rdropWhile_append_all (p : UInt8 → Bool) (X : Bytes) : ∀ (l : Bytes),
    (∀ b ∈ l, p b = true) → (X ++ l).rdropWhile p = X.rdropWhile p := by
  intro l
  induction l using List.reverseRecOn with
  | nil => intro _; simp
  | append_singleton l x ih =>
    intro h
    rw [← List.append_assoc, List.rdropWhile_concat_pos _ _ _ (h x (by simp))]
    exact ih (fun b hb => h b (by simp [hb]))

theorem rdropWhile_sep (X : Bytes) :
    (X ++ [sep]).rdropWhile (fun b => !IsPathSeparator b) = X ++ [sep] := by
  apply List.rdropWhile_concat_neg
  simp [IsPathSeparator]

/-- The directory of a path that ends in an ordinary element: the path
without that element. -/
theorem Dir_render_pushName (nf : Norm) (hv : nf.Valid) (leaf : Bytes) (hl : Normal leaf) :
    Dir (render (pushName nf leaf)) = render nf := by
  have hleaf : ∀ b ∈ leaf, (fun b => !IsPathSeparator b) b = true := by
    intro b hb
    have : b ≠ sep := fun h => hl.sepfree (h ▸ hb)
    simp [IsPathSeparator, this]
  have hpush := sim_push nf hv leaf
  have hne : renderOut (pushName nf leaf) ≠ [] := by
    have : renderOut (pushName nf leaf) = renderOut { nf with names := nf.names ++ [leaf] } := rfl
    rw [this, ← hpush]
    simp [hl.ne_nil]
  have hr : render (pushName nf leaf) = renderOut (pushName nf leaf) := by
    unfold render
    rw [if_neg (by simpa using hne)]
  have hpn : renderOut (pushName nf leaf) = renderOut { nf with names := nf.names ++ [leaf] } := rfl
  unfold Dir
  rw [hr, hpn, ← hpush, rdropWhile_append_all _ _ _ hleaf]
  by_cases hE : nf.elems = []
  · obtain ⟨h1, h2⟩ := elems_eq_nil nf hE
    obtain ⟨rooted, ups, names⟩ := nf
    simp only at h1 h2
    subst h1
    subst h2
    cases rooted <;> decide
  · have hJ : stringsJoin [sep] nf.elems ≠ [] := stringsJoin_ne_nil _ _ hE hv.elems_ne_nil
    have hJ2 : 0 < (stringsJoin [sep] nf.elems).length := List.length_pos.2 hJ
    have hro : renderOut nf ≠ [] := by
      unfold renderOut
      simp [hJ]
    have hrn : render nf = renderOut nf := by
      unfold render
      rw [if_neg (by simpa using hro)]
    have hcond : ((nf.rooted && (renderOut nf).length != 1)
        || (!nf.rooted && (renderOut nf).length != 0)) = true := by
      cases hrt : nf.rooted
      · have : (renderOut nf).length ≠ 0 := by simpa using hro
        simp [this]
      · have : (renderOut nf).length ≠ 1 := by
          simp only [renderOut, hrt, if_true, List.length_append, List.length_singleton]
          omega
        simp [this]
    rw [if_pos hcond, rdropWhile_sep, Clean_eq_render]
    have hn : norm (renderOut nf ++ [sep]) = nf := by
      have hh : (renderOut nf ++ [sep]).head? = (renderOut nf).head? := by
        cases hx : renderOut nf with
        | nil => exact absurd hx hro
        | cons c t => rfl
      have h0 : norm (renderOut nf) = nf := by rw [← hrn]; exact norm_render nf hv
      unfold norm at h0 ⊢
      rw [splitSep_append_sep, hh, List.foldl_append, h0]
      simp [splitSep, absStep]
    rw [hn]

/-- The directory of `filepath.Join(d, leaf)` is `filepath.Clean(d)`. -/
theorem Dir_Join (d leaf : Bytes) (hl : Normal leaf) : Dir (Join [d, leaf]) = Clean d := by
  rw [Join_eq_render d leaf hl, Dir_render_pushName _ (norm_valid d) leaf hl, Clean_eq_render]



/-- The model of `filepath.Clean` on entries of the test table of the Go
standard library (`path/filepath`, `cleantests`). -/
theorem Clean_test_table :
    Clean (str "abc") = str "abc" ∧ Clean (str "abc/def") = str "abc/def"
    ∧ Clean (str ".") = str "." ∧ Clean (str "..") = str ".." ∧ Clean (str "../..") = str "../.."
    ∧ Clean (str "../../abc") = str "../../abc" ∧ Clean (str "/abc") = str "/abc"
    ∧ Clean (str "/") = str "/" ∧ Clean (str "") = str "."
    ∧ Clean (str "abc/") = str "abc" ∧ Clean (str "a/b/c/") = str "a/b/c"
    ∧ Clean (str "./") = str "." ∧ Clean (str "../") = str ".." ∧ Clean (str "../../") = str "../.."
    ∧ Clean (str "/abc/") = str "/abc" ∧ Clean (str "abc//def//ghi") = str "abc/def/ghi"
    ∧ Clean (str "abc//") = str "abc" ∧ Clean (str "abc/./def") = str "abc/def"
    ∧ Clean (str "/./abc/def") = str "/abc/def" ∧ Clean (str "abc/.") = str "abc"
    ∧ Clean (str "abc/def/ghi/../jkl") = str "abc/def/jkl"
    ∧ Clean (str "abc/def/../ghi/../jkl") = str "abc/jkl"
    ∧ Clean (str "abc/def/..") = str "abc" ∧ Clean (str "abc/def/../..") = str "."
    ∧ Clean (str "/abc/def/../..") = str "/" ∧ Clean (str "abc/def/../../..") = str ".."
    ∧ Clean (str "/abc/def/../../..") = str "/"
    ∧ Clean (str "abc/def/../../../ghi/jkl/../../../mno") = str "../../mno"
    ∧ Clean (str "/../abc") = str "/abc" ∧ Clean (str "abc/./../def") = str "def"
    ∧ Clean (str "abc//./../def") = str "def"
    ∧ Clean (str "abc/../../././../def") = str "../../def" := by
  decide


/-! ## The file system calls -/

theorem lookup_upsert (l : List (Bytes × Bytes)) (k v q : Bytes) :
    (upsert l k v).lookup q = if q = k then some v else l.lookup q := by
  induction l with
  | nil =>
    by_cases h : q = k
    · simp [upsert, List.lookup, h]
    · have hb : (q == k) = false := by simpa using h
      simp [upsert, List.lookup, h, hb]
  | cons a r ih =>
    obtain ⟨k0, v0⟩ := a
    unfold upsert
    by_cases h0 : k0 = k
    · rw [if_pos h0]
      subst h0
      by_cases h : q = k0
      · simp [List.lookup, h]
      · have hb : (q == k0) = false := by simpa using h
        simp [List.lookup, h, hb]
    · rw [if_neg h0]
      by_cases h : q = k
      · subst h
        have : (q == k0) = false := by simpa using fun hh => h0 hh.symm
        simp only [List.lookup, this, ih, if_true]
      · by_cases h1 : q = k0
        · subst h1
          simp [List.lookup, h]
        · have : (q == k0) = false := by simpa using h1
          simp only [List.lookup, this, ih, if_neg h]

theorem upsert_of_lookup (l : List (Bytes × Bytes)) (k v : Bytes) (h : l.lookup k = some v) :
    upsert l k v = l := by
  induction l with
  | nil => simp [List.lookup] at h
  | cons a r ih =>
    obtain ⟨k0, v0⟩ := a
    unfold upsert
    by_cases h0 : k0 = k
    · subst h0
      simp [List.lookup] at h
      rw [if_pos rfl, h]
    · have hb : (k == k0) = false := by simpa using fun hh => h0 hh.symm
      simp only [List.lookup, hb] at h
      rw [if_neg h0, ih h]

theorem FS.readFile_upsert (fs : FS) (k v q : Bytes) :
    FS.readFile { fs with files := upsert fs.files k v } q
      = if q = k then some v else fs.readFile q := by
  simp only [FS.readFile]
  exact lookup_upsert _ _ _ _

/-- When `os.WriteFile` succeeds. -/
theorem WriteFile_eq_ok (faults : Faults) (fs : FS) (name data : Bytes)
    (h1 : fs.isDir name = false) (h2 : fs.isFile (Dir name) = false)
    (h3 : fs.isDir (Dir name) = true) (h4 : faults.write name = none) :
    WriteFile faults fs name data = ({ fs with files := upsert fs.files name data }, none) := by
  unfold WriteFile
  simp [h1, h2, h3, h4]

/-- A successful `os.WriteFile` passed all its checks and stored the data. -/
theorem WriteFile_none (faults : Faults) (fs : FS) (name data : Bytes)
    (h : (WriteFile faults fs name data).2 = none) :
    fs.isDir name = false ∧ fs.isFile (Dir name) = false ∧ fs.isDir (Dir name) = true
      ∧ faults.write name = none
      ∧ (WriteFile faults fs name data).1 = { fs with files := upsert fs.files name data } := by
  unfold WriteFile at h ⊢
  by_cases h1 : fs.isDir name = true
  · simp [h1] at h
  · by_cases h2 : fs.isFile (Dir name) = true
    · simp [h1, h2] at h
    · by_cases h3 : fs.isDir (Dir name) = true
      · cases h4 : faults.write name with
        | some e => simp [h1, h2, h3, h4] at h
        | none => simp [h1, h2, h3, h4]
      · simp [h1, h2, h3] at h

/-- A failed `os.WriteFile` leaves the file system as it was. -/
theorem WriteFile_fs_of_some (faults : Faults) (fs : FS) (name data : Bytes) (e : Bytes)
    (h : (WriteFile faults fs name data).2 = some e) :
    (WriteFile faults fs name data).1 = fs := by
  unfold WriteFile at h ⊢
  split
  · rfl
  · split
    · rfl
    · split
      · rfl
      · split
        · rfl
        · rename_i h1 h2 h3 _ h4
          simp [h1, h2, h3, h4] at h

theorem WriteFile_dirs (faults : Faults) (fs : FS) (name data : Bytes) :
    (WriteFile faults fs name data).1.dirs = fs.dirs := by
  unfold WriteFile
  split
  · rfl
  · split
    · rfl
    · split
      · rfl
      · split <;> rfl

theorem isDir_of_dirs_eq {fs fs2 : FS} (h : fs2.dirs = fs.dirs) (p : Bytes) :
    fs2.isDir p = fs.isDir p := by
  simp [FS.isDir, h]

theorem mkdirStep_files (faults : Faults) (fs : FS) (q : Bytes) :
    (mkdirStep faults fs q).1.files = fs.files := by
  unfold mkdirStep
  split
  · rfl
  · split
    · rfl
    · split <;> rfl

theorem mkdirStep_mono (faults : Faults) (fs : FS) (q d : Bytes) (h : fs.isDir d = true) :
    (mkdirStep faults fs q).1.isDir d = true := by
  unfold mkdirStep
  split
  · exact h
  · split
    · exact h
    · split
      · exact h
      · simp only [FS.isDir, Bool.or_eq_true, decide_eq_true_eq, List.mem_append] at h ⊢
        rcases h with h | h
        · exact Or.inl h
        · exact Or.inr (Or.inl h)

theorem mkdirStep_ok (faults : Faults) (fs : FS) (q : Bytes)
    (h : (mkdirStep faults fs q).2 = none) : (mkdirStep faults fs q).1.isDir q = true := by
  unfold mkdirStep at h ⊢
  by_cases h1 : fs.isDir q = true
  · simp [h1]
  · by_cases h2 : fs.isFile q = true
    · simp [h1, h2] at h
    · cases h3 : faults.mkdir q with
      | some e => simp [h1, h2, h3] at h
      | none =>
        rw [if_neg h1, if_neg h2]
        simp [FS.isDir]

theorem mkdirChain_files (faults : Faults) : ∀ (qs : List Bytes) (fs : FS),
    (mkdirChain faults fs qs).1.files = fs.files := by
  intro qs
  induction qs with
  | nil => intro fs; rfl
  | cons q r ih =>
    intro fs
    unfold mkdirChain
    have hf := mkdirStep_files faults fs q
    cases hs : mkdirStep faults fs q with
    | mk fs1 e =>
      rw [hs] at hf
      cases e with
      | some e => exact hf
      | none => simp only; rw [ih fs1]; exact hf

theorem mkdirChain_mono (faults : Faults) : ∀ (qs : List Bytes) (fs : FS) (d : Bytes),
    fs.isDir d = true → (mkdirChain faults fs qs).1.isDir d = true := by
  intro qs
  induction qs with
  | nil => intro fs d h; exact h
  | cons q r ih =>
    intro fs d h
    unfold mkdirChain
    have hm := mkdirStep_mono faults fs q d h
    cases hs : mkdirStep faults fs q with
    | mk fs1 e =>
      rw [hs] at hm
      cases e with
      | some e => exact hm
      | none => exact ih fs1 d hm

theorem mkdirChain_ok (faults : Faults) : ∀ (qs : List Bytes) (fs : FS),
    (mkdirChain faults fs qs).2 = none → ∀ q ∈ qs, (mkdirChain faults fs qs).1.isDir q = true := by
  intro qs
  induction qs with
  | nil => intro fs _ q hq; simp at hq
  | cons q0 r ih =>
    intro fs h q hq
    unfold mkdirChain at h ⊢
    have hok := mkdirStep_ok faults fs q0
    cases hs : mkdirStep faults fs q0 with
    | mk fs1 e =>
      rw [hs] at hok h
      cases e with
      | some e => simp at h
      | none =>
        simp only at h ⊢
        rcases List.mem_cons.1 hq with h1 | h1
        · subst h1
          exact mkdirChain_mono faults r fs1 q (hok rfl)
        · exact ih fs1 h q h1

/-- The function `os.MkdirAll` does nothing when the path is a directory already. -/
theorem MkdirAll_of_isDir (faults : Faults) (fs : FS) (path : Bytes) (h : fs.isDir path = true) :
    MkdirAll faults fs path = (fs, none) := by
  unfold MkdirAll
  rw [if_pos h]

/-- After a successful `os.MkdirAll` the path is a directory. -/
theorem MkdirAll_ok (faults : Faults) (fs : FS) (path : Bytes)
    (h : (MkdirAll faults fs path).2 = none) : (MkdirAll faults fs path).1.isDir path = true := by
  unfold MkdirAll at h ⊢
  split
  · assumption
  · split
    · rename_i h1 h2
      simp [h1, h2] at h
    · rename_i h1 h2
      rw [if_neg h1, if_neg h2] at h
      exact mkdirChain_ok faults _ fs h path (by simp)

theorem MkdirAll_files (faults : Faults) (fs : FS) (path : Bytes) :
    (MkdirAll faults fs path).1.files = fs.files := by
  unfold MkdirAll
  split
  · rfl
  · split
    · rfl
    · exact mkdirChain_files faults _ fs

/-- The function `os.MkdirAll` never removes a directory. -/
theorem MkdirAll_mono (faults : Faults) (fs : FS) (path d : Bytes) (h : fs.isDir d = true) :
    (MkdirAll faults fs path).1.isDir d = true := by
  unfold MkdirAll
  split
  · exact h
  · split
    · exact h
    · exact mkdirChain_mono faults _ fs d h



/-! ## The loops of `generate` -/

theorem createDirs_cons_ok (faults : Faults) (w : World) (dir : Bytes) (rest : List Bytes)
    (fs1 : FS) (h : MkdirAll faults w.fs dir = (fs1, none)) :
    createDirs faults w (dir :: rest)
      = createDirs faults ⟨fs1, w.log ++ [⟨.mkdirAll dir, true⟩]⟩ rest := by
  rw [createDirs, h]

theorem createDirs_cons_err (faults : Faults) (w : World) (dir : Bytes) (rest : List Bytes)
    (fs1 : FS) (e : Bytes) (h : MkdirAll faults w.fs dir = (fs1, some e)) :
    createDirs faults w (dir :: rest)
      = ⟨some (.createDir dir e), ⟨fs1, w.log ++ [⟨.mkdirAll dir, false⟩]⟩⟩ := by
  rw [createDirs, h]

/-- The directory loop either makes all its calls with success, or stops at
the first `os.MkdirAll` that fails. -/
theorem createDirs_cases (faults : Faults) : ∀ (ds : List Bytes) (w : World),
    ((createDirs faults w ds).err = none
      ∧ (createDirs faults w ds).world.log = w.log ++ dirCalls ds)
    ∨ ∃ pre d post cause, ds = pre ++ d :: post
      ∧ (createDirs faults w ds).err = some (.createDir d cause)
      ∧ (createDirs faults w ds).world.log = w.log ++ dirCalls pre ++ [⟨.mkdirAll d, false⟩] := by
  intro ds
  induction ds with
  | nil => intro w; left; simp [createDirs, dirCalls]
  | cons dir rest ih =>
    intro w
    cases hm : MkdirAll faults w.fs dir with
    | mk fs1 e =>
      cases e with
      | some e =>
        right
        refine ⟨[], dir, rest, e, rfl, ?_, ?_⟩
        · rw [createDirs_cons_err faults w dir rest fs1 e hm]
        · rw [createDirs_cons_err faults w dir rest fs1 e hm]
          simp [dirCalls]
      | none =>
        rw [createDirs_cons_ok faults w dir rest fs1 hm]
        rcases ih ⟨fs1, w.log ++ [⟨.mkdirAll dir, true⟩]⟩ with ⟨h1, h2⟩ | ⟨pre, d, post, c, h1, h2, h3⟩
        · left
          refine ⟨h1, ?_⟩
          rw [h2]
          simp [dirCalls]
        · right
          refine ⟨dir :: pre, d, post, c, by rw [h1]; rfl, h2, ?_⟩
          rw [h3]
          simp [dirCalls]

/-- The directory loop does not touch regular files. -/
theorem createDirs_files (faults : Faults) : ∀ (ds : List Bytes) (w : World),
    (createDirs faults w ds).world.fs.files = w.fs.files := by
  intro ds
  induction ds with
  | nil => intro w; rfl
  | cons dir rest ih =>
    intro w
    have hf := MkdirAll_files faults w.fs dir
    cases hm : MkdirAll faults w.fs dir with
    | mk fs1 e =>
      rw [hm] at hf
      cases e with
      | some e => rw [createDirs_cons_err faults w dir rest fs1 e hm]; exact hf
      | none => rw [createDirs_cons_ok faults w dir rest fs1 hm, ih]; exact hf

/-- The directory loop never removes a directory. -/
theorem createDirs_mono (faults : Faults) : ∀ (ds : List Bytes) (w : World) (d : Bytes),
    w.fs.isDir d = true → (createDirs faults w ds).world.fs.isDir d = true := by
  intro ds
  induction ds with
  | nil => intro w d h; exact h
  | cons dir rest ih =>
    intro w d h
    have hf := MkdirAll_mono faults w.fs dir d h
    cases hm : MkdirAll faults w.fs dir with
    | mk fs1 e =>
      rw [hm] at hf
      cases e with
      | some e => rw [createDirs_cons_err faults w dir rest fs1 e hm]; exact hf
      | none => rw [createDirs_cons_ok faults w dir rest fs1 hm]; exact ih _ d hf

/-- After a directory loop without error all its directories exist. -/
theorem createDirs_ok_isDir (faults : Faults) : ∀ (ds : List Bytes) (w : World),
    (createDirs faults w ds).err = none →
    ∀ d ∈ ds, (createDirs faults w ds).world.fs.isDir d = true := by
  intro ds
  induction ds with
  | nil => intro w _ d hd; simp at hd
  | cons dir rest ih =>
    intro w h d hd
    have hok := MkdirAll_ok faults w.fs dir
    cases hm : MkdirAll faults w.fs dir with
    | mk fs1 e =>
      rw [hm] at hok
      cases e with
      | some e =>
        rw [createDirs_cons_err faults w dir rest fs1 e hm] at h
        simp at h
      | none =>
        rw [createDirs_cons_ok faults w dir rest fs1 hm] at h ⊢
        rcases List.mem_cons.1 hd with h1 | h1
        · subst h1
          exact createDirs_mono faults rest _ d (hok rfl)
        · exact ih _ h d h1

/-- On directories that exist already the directory loop changes nothing
and reports no error. -/
theorem createDirs_noop (faults : Faults) : ∀ (ds : List Bytes) (w : World),
    (∀ d ∈ ds, w.fs.isDir d = true) →
    createDirs faults w ds = ⟨none, ⟨w.fs, w.log ++ dirCalls ds⟩⟩ := by
  intro ds
  induction ds with
  | nil => intro w _; simp [createDirs, dirCalls]
  | cons dir rest ih =>
    intro w h
    have hm := MkdirAll_of_isDir faults w.fs dir (h dir (List.mem_cons_self _ _))
    rw [createDirs_cons_ok faults w dir rest w.fs hm, ih]
    · simp [dirCalls]
    · intro d hd
      exact h d (List.mem_cons_of_mem _ hd)

theorem readTemplateFile_ok (templateFs : TemplateFs) (baseDir p c : Bytes)
    (h : templateFs p = .ok c) :
    readTemplateFile templateFs baseDir p = .ok (Replace c token baseDir) := by
  unfold readTemplateFile
  rw [h]

theorem readTemplateFile_error (templateFs : TemplateFs) (baseDir p cause : Bytes)
    (h : templateFs p = .error cause) :
    readTemplateFile templateFs baseDir p = .error (.readTemplate p cause) := by
  unfold readTemplateFile
  rw [h]

theorem writeFiles_cons_read_err (env : Env) (baseDir : Bytes) (w : World) (x : Bytes × Bytes)
    (rest : List (Bytes × Bytes)) (cause : Bytes) (h : env.templateFs x.2 = .error cause) :
    writeFiles env baseDir w (x :: rest)
      = ⟨some (.readTemplate x.2 cause), ⟨w.fs, w.log ++ [⟨.readFile x.2, false⟩]⟩⟩ := by
  obtain ⟨p, t⟩ := x
  rw [writeFiles, readTemplateFile_error _ _ _ _ h]

theorem writeFiles_cons_write_err (env : Env) (baseDir : Bytes) (w : World) (x : Bytes × Bytes)
    (rest : List (Bytes × Bytes)) (c : Bytes) (fs1 : FS) (e : Bytes)
    (h : env.templateFs x.2 = .ok c)
    (hw : WriteFile env.faults w.fs x.1 (Replace c token baseDir) = (fs1, some e)) :
    writeFiles env baseDir w (x :: rest)
      = ⟨some (.createFile x.1 e),
          ⟨fs1, w.log ++ [⟨.readFile x.2, true⟩, ⟨.writeFile x.1, false⟩]⟩⟩ := by
  obtain ⟨p, t⟩ := x
  rw [writeFiles, readTemplateFile_ok _ _ _ _ h]
  simp only
  rw [hw]

theorem writeFiles_cons_ok (env : Env) (baseDir : Bytes) (w : World) (x : Bytes × Bytes)
    (rest : List (Bytes × Bytes)) (c : Bytes) (fs1 : FS)
    (h : env.templateFs x.2 = .ok c)
    (hw : WriteFile env.faults w.fs x.1 (Replace c token baseDir) = (fs1, none)) :
    writeFiles env baseDir w (x :: rest)
      = writeFiles env baseDir
          ⟨fs1, w.log ++ [⟨.readFile x.2, true⟩, ⟨.writeFile x.1, true⟩]⟩ rest := by
  obtain ⟨p, t⟩ := x
  rw [writeFiles, readTemplateFile_ok _ _ _ _ h]
  simp only
  rw [hw]

/-- The file loop either makes all its calls with success, or stops at the
first template that cannot be read, or at the first file that cannot be
written. -/
theorem writeFiles_cases (env : Env) (baseDir : Bytes) : ∀ (order : List (Bytes × Bytes))
    (w : World),
    ((writeFiles env baseDir w order).err = none
      ∧ (writeFiles env baseDir w order).world.log = w.log ++ fileCalls order)
    ∨ (∃ pre x post cause, order = pre ++ x :: post
      ∧ env.templateFs x.2 = .error cause
      ∧ (∀ y ∈ pre, ∃ c, env.templateFs y.2 = .ok c)
      ∧ (writeFiles env baseDir w order).err = some (.readTemplate x.2 cause)
      ∧ (writeFiles env baseDir w order).world.log
          = w.log ++ fileCalls pre ++ [⟨.readFile x.2, false⟩])
    ∨ (∃ pre x post cause, order = pre ++ x :: post
      ∧ (writeFiles env baseDir w order).err = some (.createFile x.1 cause)
      ∧ (writeFiles env baseDir w order).world.log
          = w.log ++ fileCalls pre ++ [⟨.readFile x.2, true⟩, ⟨.writeFile x.1, false⟩]) := by
  intro order
  induction order with
  | nil => intro w; left; simp [writeFiles, fileCalls]
  | cons x rest ih =>
    intro w
    cases ht : env.templateFs x.2 with
    | error cause =>
      right; left
      refine ⟨[], x, rest, cause, rfl, ht, by simp, ?_, ?_⟩
      · rw [writeFiles_cons_read_err env baseDir w x rest cause ht]
      · rw [writeFiles_cons_read_err env baseDir w x rest cause ht]
        simp [fileCalls]
    | ok c =>
      cases hw : WriteFile env.faults w.fs x.1 (Replace c token baseDir) with
      | mk fs1 e =>
        cases e with
        | some e =>
          right; right
          refine ⟨[], x, rest, e, rfl, ?_, ?_⟩
          · rw [writeFiles_cons_write_err env baseDir w x rest c fs1 e ht hw]
          · rw [writeFiles_cons_write_err env baseDir w x rest c fs1 e ht hw]
            simp [fileCalls]
        | none =>
          rw [writeFiles_cons_ok env baseDir w x rest c fs1 ht hw]
          rcases ih ⟨fs1, w.log ++ [⟨.readFile x.2, true⟩, ⟨.writeFile x.1, true⟩]⟩ with
            ⟨h1, h2⟩ | ⟨pre, y, post, cause, h1, h2, h3, h4, h5⟩ | ⟨pre, y, post, cause, h1, h2, h3⟩
          · left
            refine ⟨h1, ?_⟩
            rw [h2]
            simp [fileCalls]
          · right; left
            refine ⟨x :: pre, y, post, cause, by rw [h1]; rfl, h2, ?_, h4, ?_⟩
            · intro z hz
              rcases List.mem_cons.1 hz with hz | hz
              · subst hz; exact ⟨c, ht⟩
              · exact h3 z hz
            · rw [h5]
              simp [fileCalls]
          · right; right
            refine ⟨x :: pre, y, post, cause, by rw [h1]; rfl, h2, ?_⟩
            rw [h3]
            simp [fileCalls]

/-- The file loop leaves the directories alone. -/
theorem writeFiles_dirs (env : Env) (baseDir : Bytes) : ∀ (order : List (Bytes × Bytes))
    (w : World), (writeFiles env baseDir w order).world.fs.dirs = w.fs.dirs := by
  intro order
  induction order with
  | nil => intro w; rfl
  | cons x rest ih =>
    intro w
    cases ht : env.templateFs x.2 with
    | error cause => rw [writeFiles_cons_read_err env baseDir w x rest cause ht]
    | ok c =>
      have hd := WriteFile_dirs env.faults w.fs x.1 (Replace c token baseDir)
      cases hw : WriteFile env.faults w.fs x.1 (Replace c token baseDir) with
      | mk fs1 e =>
        rw [hw] at hd
        cases e with
        | some e => rw [writeFiles_cons_write_err env baseDir w x rest c fs1 e ht hw]; exact hd
        | none => rw [writeFiles_cons_ok env baseDir w x rest c fs1 ht hw, ih]; exact hd



theorem isFile_upsert_of_isDir (fs : FS) (k v d : Bytes) (hk : fs.isDir k = false)
    (hd : fs.isDir d = true) :
    FS.isFile { fs with files := upsert fs.files k v } d = fs.isFile d := by
  have hne : d ≠ k := by
    intro h
    rw [h, hk] at hd
    exact Bool.noConfusion hd
  simp only [FS.isFile, FS.readFile_upsert, if_neg hne]

/-- A file loop without error: the directories are unchanged, every entry
satisfies `EntryOk` in the final state, files outside the table are
unchanged, and, if no path occurs twice, every destination holds its
rendered template. -/
theorem writeFiles_ok (env : Env) (baseDir : Bytes) : ∀ (order : List (Bytes × Bytes))
    (w : World), (writeFiles env baseDir w order).err = none →
    (∀ e ∈ order, EntryOk env (writeFiles env baseDir w order).world.fs e)
    ∧ (∀ p, p ∉ order.map Prod.fst →
        (writeFiles env baseDir w order).world.fs.readFile p = w.fs.readFile p)
    ∧ ((order.map Prod.fst).Nodup → ∀ e ∈ order,
        ∃ c, env.templateFs e.2 = .ok c ∧
          (writeFiles env baseDir w order).world.fs.readFile e.1
            = some (Replace c token baseDir)) := by
  intro order
  induction order with
  | nil => intro w _; simp [writeFiles]
  | cons x rest ih =>
    intro w h
    cases ht : env.templateFs x.2 with
    | error cause =>
      rw [writeFiles_cons_read_err env baseDir w x rest cause ht] at h
      simp at h
    | ok c =>
      have hnone := WriteFile_none env.faults w.fs x.1 (Replace c token baseDir)
      cases hw : WriteFile env.faults w.fs x.1 (Replace c token baseDir) with
      | mk fs1 e =>
        rw [hw] at hnone
        cases e with
        | some e =>
          rw [writeFiles_cons_write_err env baseDir w x rest c fs1 e ht hw] at h
          simp at h
        | none =>
          obtain ⟨n1, n2, n3, n4, n5⟩ := hnone rfl
          simp only at n5
          rw [writeFiles_cons_ok env baseDir w x rest c fs1 ht hw] at h ⊢
          have hdirs := writeFiles_dirs env baseDir rest
            ⟨fs1, w.log ++ [⟨.readFile x.2, true⟩, ⟨.writeFile x.1, true⟩]⟩
          simp only at hdirs
          have hd1 : fs1.dirs = w.fs.dirs := by rw [n5]
          obtain ⟨i1, i2, i3⟩ := ih ⟨fs1, w.log ++ [⟨.readFile x.2, true⟩, ⟨.writeFile x.1, true⟩]⟩ h
          simp only at i1 i2 i3
          have hD : ∀ p, (writeFiles env baseDir
              ⟨fs1, w.log ++ [⟨.readFile x.2, true⟩, ⟨.writeFile x.1, true⟩]⟩ rest).world.fs.isDir p
              = w.fs.isDir p := fun p => isDir_of_dirs_eq (hdirs.trans hd1) p
          -- the directory of `x` is the path of no later entry
          have hnot : Dir x.1 ∉ rest.map Prod.fst := by
            intro hm
            obtain ⟨y, hy, hyx⟩ := List.mem_map.1 hm
            have := (i1 y hy).2.1
            rw [hD, hyx, n3] at this
            exact Bool.noConfusion this
          have hx1 : fs1.readFile x.1 = some (Replace c token baseDir) := by
            rw [n5, FS.readFile_upsert, if_pos rfl]
          refine ⟨?_, ?_, ?_⟩
          · intro y hy
            rcases List.mem_cons.1 hy with hy | hy
            · subst hy
              refine ⟨⟨c, ht⟩, by rw [hD]; exact n1, by rw [hD]; exact n3, ?_, n4⟩
              have e1 := i2 (Dir y.1) hnot
              have e2 := isFile_upsert_of_isDir w.fs y.1 (Replace c token baseDir) (Dir y.1) n1 n3
              rw [← n5] at e2
              simp only [FS.isFile] at e2 ⊢
              rw [e1, e2]
              simpa [FS.isFile] using n2
            · exact i1 y hy
          · intro p hp
            simp only [List.map_cons, List.mem_cons, not_or] at hp
            rw [i2 p hp.2, n5, FS.readFile_upsert, if_neg hp.1]
          · intro hnd y hy
            simp only [List.map_cons, List.nodup_cons] at hnd
            rcases List.mem_cons.1 hy with hy | hy
            · subst hy
              exact ⟨c, ht, by rw [i2 y.1 hnd.1]; exact hx1⟩
            · exact i3 hnd.2 y hy

/-- Conditions under which the file loop reports no error: in the initial
state every entry satisfies `EntryOk`. -/
theorem writeFiles_suff (env : Env) (baseDir : Bytes) : ∀ (order : List (Bytes × Bytes))
    (w : World), (∀ e ∈ order, EntryOk env w.fs e) →
    (writeFiles env baseDir w order).err = none := by
  intro order
  induction order with
  | nil => intro w _; rfl
  | cons x rest ih =>
    intro w h
    obtain ⟨⟨c, ht⟩, n1, n3, n2, n4⟩ := h x (List.mem_cons_self _ _)
    have hw := WriteFile_eq_ok env.faults w.fs x.1 (Replace c token baseDir) n1 n2 n3 n4
    rw [writeFiles_cons_ok env baseDir w x rest c _ ht hw]
    apply ih
    intro y hy
    obtain ⟨m0, m1, m3, m2, m4⟩ := h y (List.mem_cons_of_mem _ hy)
    refine ⟨m0, ?_, ?_, ?_, m4⟩
    · simpa [FS.isDir] using m1
    · simpa [FS.isDir] using m3
    · simp only
      rw [isFile_upsert_of_isDir w.fs x.1 _ (Dir y.1) n1 m3]
      exact m2

/-- When every destination holds its rendered template already, the file
loop reports no error and leaves the file system as it is. -/
theorem writeFiles_idem (env : Env) (baseDir : Bytes) : ∀ (order : List (Bytes × Bytes))
    (w : World),
    (∀ e ∈ order, EntryOk env w.fs e ∧
      ∃ c, env.templateFs e.2 = .ok c ∧ w.fs.readFile e.1 = some (Replace c token baseDir)) →
    writeFiles env baseDir w order = ⟨none, ⟨w.fs, w.log ++ fileCalls order⟩⟩ := by
  intro order
  induction order with
  | nil => intro w _; simp [writeFiles, fileCalls]
  | cons x rest ih =>
    intro w h
    obtain ⟨⟨_, n1, n3, n2, n4⟩, c, ht, hr⟩ := h x (List.mem_cons_self _ _)
    have hw := WriteFile_eq_ok env.faults w.fs x.1 (Replace c token baseDir) n1 n2 n3 n4
    have hsame : ({ w.fs with files := upsert w.fs.files x.1 (Replace c token baseDir) } : FS)
        = w.fs := by
      have := upsert_of_lookup w.fs.files x.1 (Replace c token baseDir) hr
      rw [this]
    rw [hsame] at hw
    rw [writeFiles_cons_ok env baseDir w x rest c _ ht hw, ih]
    · simp [fileCalls]
    · intro y hy
      exact h y (List.mem_cons_of_mem _ hy)

/-! ## The table `templatePaths` -/

theorem normal_leaves :
    Normal (str "index.html") ∧ Normal (str "style.css") ∧ Normal (str "app.js")
    ∧ Normal (str "htmx.min.js") ∧ Normal (str "userRoutes.go")
    ∧ Normal (str "CreateUserHandler.go") ∧ Normal (str "app.go") ∧ Normal (str "Makefile") := by
  decide

theorem normal_dirs :
    Normal (str "views") ∧ Normal (str "public") ∧ Normal (str "css") ∧ Normal (str "js")
    ∧ Normal (str "lib") ∧ Normal (str "routes") ∧ Normal (str "controllers") := by
  decide

/-- The eight destination paths are pairwise different, for every project name. -/
theorem templatePaths_keys_nodup (baseDir : Bytes) :
    ((templatePaths baseDir).map Prod.fst).Nodup := by
  obtain ⟨n1, n2, n3, n4, n5, n6, n7, n8⟩ := normal_leaves
  have key : ∀ (d1 d2 l1 l2 : Bytes), Normal l1 → Normal l2 → l1 ≠ l2 →
      Join [d1, l1] ≠ Join [d2, l2] := Join_ne_of_leaf_ne
  simp only [templatePaths, List.map_cons, List.map_nil, List.nodup_cons, List.mem_cons,
    List.mem_singleton, List.not_mem_nil, not_or, not_false_eq_true, List.nodup_nil, and_true]
  refine ⟨⟨?_, ?_, ?_, ?_, ?_, ?_, ?_⟩, ⟨?_, ?_, ?_, ?_, ?_, ?_⟩, ⟨?_, ?_, ?_, ?_, ?_⟩,
    ⟨?_, ?_, ?_, ?_⟩, ⟨?_, ?_, ?_⟩, ⟨?_, ?_⟩, ?_⟩ <;>
  first
    | exact key _ _ _ _ (by assumption) (by assumption) (by decide)



/-! ## Claims about `readTemplateFile` -/

/-- C1. For every template content and every project name, `readTemplateFile`
returns the pieces of the content split on `{AppName}` (non-overlapping
occurrences, left to right) joined with the project name; the inserted name
is not scanned again, whatever it contains. -/
theorem readTemplateFile_split_join (templateFs : TemplateFs) (baseDir filePath content : Bytes)
    (h : templateFs filePath = .ok content) :
    readTemplateFile templateFs baseDir filePath
      = .ok (joinWith baseDir (splitOnToken content token)) := by
  rw [readTemplateFile_ok templateFs baseDir filePath content h,
    Replace_eq_join content token baseDir token_ne_nil]

/-- Witness for C1: a template with two placeholders, and a project name that
contains the placeholder itself. -/
theorem readTemplateFile_split_join_witness :
    (fun _ => Except.ok (token ++ str "/" ++ token) : TemplateFs) (str "t") =
        .ok (token ++ str "/" ++ token)
    ∧ readTemplateFile (fun _ => Except.ok (token ++ str "/" ++ token)) (str "x" ++ token)
        (str "t")
      = .ok (joinWith (str "x" ++ token) (splitOnToken (token ++ str "/" ++ token) token)) :=
  ⟨rfl, readTemplateFile_split_join _ _ _ _ rfl⟩

/-- C2 fails as stated.  With the content `{A{AppName}Name}` (one occurrence of
the token) and the project name `pp` (which does not contain the token), the
result is `{AppName}`: one occurrence of the token, not zero.  With the
content `demo {AppName}` and the project name `demo`, the result `demo demo`
holds two occurrences of the name, not one.  With the content
`{AppName}AppName}` and the project name `x{`, the result `x{AppName}` holds
the token; with the content `{AppName{AppName}` and the project name `}x`,
the result `{AppName}x` holds the token. -/
theorem token_count_counterexample :
    (Count (str "\x7bA" ++ token ++ str "Name\x7d") token = 1
      ∧ Index (str "pp") token = none
      ∧ readTemplateFile (fun _ => Except.ok (str "\x7bA" ++ token ++ str "Name\x7d"))
          (str "pp") (str "t") = .ok token
      ∧ Count token token = 1)
    ∧ (Count (str "demo " ++ token) token = 1
      ∧ Index (str "demo") token = none
      ∧ readTemplateFile (fun _ => Except.ok (str "demo " ++ token)) (str "demo") (str "t")
          = .ok (str "demo demo")
      ∧ Count (str "demo demo") (str "demo") = 2)
    ∧ (Count (token ++ str "AppName\x7d") token = 1
      ∧ Index (str "x\x7b") token = none
      ∧ readTemplateFile (fun _ => Except.ok (token ++ str "AppName\x7d")) (str "x\x7b")
          (str "t") = .ok (str "x" ++ token)
      ∧ Count (str "x" ++ token) token = 1)
    ∧ (Count (str "\x7bAppName" ++ token) token = 1
      ∧ Index (str "\x7dx") token = none
      ∧ readTemplateFile (fun _ => Except.ok (str "\x7bAppName" ++ token)) (str "\x7dx")
          (str "t") = .ok (token ++ str "x")
      ∧ Count (token ++ str "x") token = 1) :=
  ⟨⟨by decide, by decide, rfl, by decide⟩, ⟨by decide, by decide, rfl, by decide⟩,
    ⟨by decide, by decide, rfl, by decide⟩, ⟨by decide, by decide, rfl, by decide⟩⟩

/-- C2, amended.  For a content with `N` occurrences of `{AppName}` and a
project name that does not contain `{AppName}`, does not occur inside
`{AppName}` (so it is not empty), has no non-empty proper final part that is
an initial part of `{AppName}`, and has no non-empty proper initial part that
is a final part of `{AppName}`, the result of `readTemplateFile` has no
occurrence of `{AppName}` and at least `N` non-overlapping occurrences of the
project name. -/
theorem readTemplateFile_counts (templateFs : TemplateFs) (baseDir filePath content : Bytes)
    (N : Nat) (h : templateFs filePath = .ok content) (hN : Count content token = N)
    (hcontains : ¬ token <:+: baseDir) (hinside : ¬ baseDir <:+: token)
    (hfinal : ∀ u l, baseDir = u ++ l → u ≠ [] → l ≠ [] → ¬ l <+: token)
    (hinitial : ∀ l u, baseDir = l ++ u → l ≠ [] → u ≠ [] → ¬ l <:+ token) :
    ∃ out, readTemplateFile templateFs baseDir filePath = .ok out
      ∧ Count out token = 0 ∧ N ≤ Count out baseDir := by
  have hname : baseDir ≠ [] := by
    intro h0
    exact hinside (h0 ▸ List.nil_infix)
  refine ⟨Replace content token baseDir, readTemplateFile_ok _ _ _ _ h, ?_, ?_⟩
  · rw [Count_eq_zero_iff _ _ token_ne_nil]
    exact Replace_no_occurrence token baseDir token_ne_nil hcontains hinside hfinal hinitial
      content.length content (Nat.le_refl _)
  · rw [← hN]
    exact Count_Replace_ge token baseDir token_ne_nil hname content.length content (Nat.le_refl _)

/-- Witness for C2, amended: two placeholders, project name `a{b`, which
holds a brace. -/
theorem readTemplateFile_counts_witness :
    ((fun _ => Except.ok (token ++ str "/" ++ token) : TemplateFs) (str "t")
        = .ok (token ++ str "/" ++ token)
      ∧ Count (token ++ str "/" ++ token) token = 2
      ∧ ¬ token <:+: str "a\x7bb" ∧ ¬ str "a\x7bb" <:+: token
      ∧ (∀ u l, str "a\x7bb" = u ++ l → u ≠ [] → l ≠ [] → ¬ l <+: token)
      ∧ (∀ l u, str "a\x7bb" = l ++ u → l ≠ [] → u ≠ [] → ¬ l <:+ token))
    ∧ ∃ out, readTemplateFile (fun _ => Except.ok (token ++ str "/" ++ token)) (str "a\x7bb")
        (str "t") = .ok out ∧ Count out token = 0 ∧ 2 ≤ Count out (str "a\x7bb") :=
  have h1 : ¬ token <:+: str "a\x7bb" :=
    (Index_eq_none_iff (str "a\x7bb") token).1 (by decide)
  have h2 : ¬ str "a\x7bb" <:+: token :=
    (Index_eq_none_iff token (str "a\x7bb")).1 (by decide)
  have h3 := no_suffix_border (str "a\x7bb") token (by decide)
  have h4 := no_prefix_border (str "a\x7bb") token (by decide)
  ⟨⟨rfl, by decide, h1, h2, h3, h4⟩,
    readTemplateFile_counts _ (str "a\x7bb") (str "t") _ 2 rfl (by decide) h1 h2 h3 h4⟩

/-- C3. When `{AppName}` does not occur in the content of the template,
`readTemplateFile` returns the content unchanged, and no error. -/
theorem readTemplateFile_absent (templateFs : TemplateFs) (baseDir filePath content : Bytes)
    (h : templateFs filePath = .ok content) (habsent : ¬ token <:+: content) :
    readTemplateFile templateFs baseDir filePath = .ok content := by
  rw [readTemplateFile_ok templateFs baseDir filePath content h,
    Replace_of_not_infix content token baseDir token_ne_nil habsent]

/-- Witness for C3: the content `package main`. -/
theorem readTemplateFile_absent_witness :
    ((fun _ => Except.ok (str "package main") : TemplateFs) (str "t") = .ok (str "package main")
      ∧ ¬ token <:+: str "package main")
    ∧ readTemplateFile (fun _ => Except.ok (str "package main")) demo (str "t")
        = .ok (str "package main") :=
  have h0 : ¬ token <:+: str "package main" :=
    (Index_eq_none_iff (str "package main") token).1 (by decide)
  ⟨⟨rfl, h0⟩, readTemplateFile_absent _ demo (str "t") _ rfl h0⟩



/-! ## The run as a whole -/

theorem generate_of_dirs_err (env : Env) (baseDir : Bytes) (order : List (Bytes × Bytes))
    (w : World) (e : GenError) (h : (createDirs env.faults w (dirs baseDir)).err = some e) :
    generate env baseDir order w = ⟨some e, (createDirs env.faults w (dirs baseDir)).world⟩ := by
  unfold generate
  simp only [h]

theorem generate_of_files_err (env : Env) (baseDir : Bytes) (order : List (Bytes × Bytes))
    (w : World) (e : GenError) (h1 : (createDirs env.faults w (dirs baseDir)).err = none)
    (h2 : (writeFiles env baseDir (createDirs env.faults w (dirs baseDir)).world order).err
      = some e) :
    generate env baseDir order w
      = ⟨some e, (writeFiles env baseDir (createDirs env.faults w (dirs baseDir)).world
          order).world⟩ := by
  unfold generate
  simp only [h1, h2]

theorem generate_of_ok (env : Env) (baseDir : Bytes) (order : List (Bytes × Bytes))
    (w : World) (h1 : (createDirs env.faults w (dirs baseDir)).err = none)
    (h2 : (writeFiles env baseDir (createDirs env.faults w (dirs baseDir)).world order).err
      = none) :
    generate env baseDir order w
      = runGoModInit env baseDir
          (writeFiles env baseDir (createDirs env.faults w (dirs baseDir)).world order).world := by
  unfold generate
  simp only [h1, h2]

theorem createAndWrite_of_dirs_err (env : Env) (baseDir : Bytes) (order : List (Bytes × Bytes))
    (w : World) (e : GenError) (h : (createDirs env.faults w (dirs baseDir)).err = some e) :
    createAndWrite env baseDir order w
      = ⟨some e, (createDirs env.faults w (dirs baseDir)).world⟩ := by
  unfold createAndWrite
  simp only [h]

theorem createAndWrite_of_dirs_ok (env : Env) (baseDir : Bytes) (order : List (Bytes × Bytes))
    (w : World) (h : (createDirs env.faults w (dirs baseDir)).err = none) :
    createAndWrite env baseDir order w
      = writeFiles env baseDir (createDirs env.faults w (dirs baseDir)).world order := by
  unfold createAndWrite
  simp only [h]

/-- When the two first phases report no error, both loops did. -/
theorem createAndWrite_ok (env : Env) (baseDir : Bytes) (order : List (Bytes × Bytes))
    (w : World) (h : (createAndWrite env baseDir order w).err = none) :
    (createDirs env.faults w (dirs baseDir)).err = none
    ∧ createAndWrite env baseDir order w
      = writeFiles env baseDir (createDirs env.faults w (dirs baseDir)).world order := by
  cases h1 : (createDirs env.faults w (dirs baseDir)).err with
  | some e =>
    rw [createAndWrite_of_dirs_err env baseDir order w e h1] at h
    simp at h
  | none => exact ⟨rfl, createAndWrite_of_dirs_ok env baseDir order w h1⟩

/-- The function `generate` runs the external command on the world the two first phases leave. -/
theorem generate_eq_runGoModInit (env : Env) (baseDir : Bytes) (order : List (Bytes × Bytes))
    (w : World) (h : (createAndWrite env baseDir order w).err = none) :
    generate env baseDir order w
      = runGoModInit env baseDir (createAndWrite env baseDir order w).world := by
  obtain ⟨h1, h2⟩ := createAndWrite_ok env baseDir order w h
  rw [h2] at h ⊢
  exact generate_of_ok env baseDir order w h1 h

theorem dirCalls_append (a b : List Bytes) : dirCalls (a ++ b) = dirCalls a ++ dirCalls b := by
  simp [dirCalls]

theorem fileCalls_append (a b : List (Bytes × Bytes)) :
    fileCalls (a ++ b) = fileCalls a ++ fileCalls b := by
  simp [fileCalls]

theorem dirCalls_ok (ds : List Bytes) : ∀ c ∈ dirCalls ds, c.ok = true := by
  intro c hc
  simp only [dirCalls, List.mem_map] at hc
  obtain ⟨d, _, rfl⟩ := hc
  rfl

theorem fileCalls_ok (es : List (Bytes × Bytes)) : ∀ c ∈ fileCalls es, c.ok = true := by
  intro c hc
  simp only [fileCalls, List.mem_flatMap, List.mem_cons, List.mem_singleton,
    List.not_mem_nil, or_false] at hc
  obtain ⟨e, _, h | h⟩ := hc <;> subst h <;> rfl

theorem dirCalls_op (ds : List Bytes) : ∀ c ∈ dirCalls ds, ∃ d, c.op = .mkdirAll d := by
  intro c hc
  simp only [dirCalls, List.mem_map] at hc
  obtain ⟨d, _, rfl⟩ := hc
  exact ⟨d, rfl⟩

theorem fileCalls_op (es : List (Bytes × Bytes)) (b : Bytes) :
    ∀ c ∈ fileCalls es, c.op ≠ .goModInit b := by
  intro c hc
  simp only [fileCalls, List.mem_flatMap, List.mem_cons, List.mem_singleton,
    List.not_mem_nil, or_false] at hc
  obtain ⟨e, _, h | h⟩ := hc <;> subst h <;> simp

theorem dirCalls_op_ne (ds : List Bytes) (b : Bytes) :
    ∀ c ∈ dirCalls ds, c.op ≠ .goModInit b := by
  intro c hc
  obtain ⟨d, hd⟩ := dirCalls_op ds c hc
  rw [hd]
  simp

/-- C7. `generate` is fail-fast.  The calls it makes form an initial part of
the sequence create-directories, write-files, init-module; when it returns an
error, the last call made is the failed call that the error comes from and
all calls before it succeeded, so no later step is performed.  In
particular, after a failed directory creation only directory creations have
been attempted, and when the error does not come from the external command,
the command has not been invoked. -/
theorem generate_fail_fast (env : Env) (baseDir : Bytes) (order : List (Bytes × Bytes))
    (w : World) :
    ∃ calls, (generate env baseDir order w).world.log = w.log ++ calls
      ∧ FailFast (plan baseDir order) calls (generate env baseDir order w).err
      ∧ (∀ d cause, (generate env baseDir order w).err = some (.createDir d cause) →
          ∀ c ∈ calls, ∃ d2, c.op = .mkdirAll d2)
      ∧ (∀ e, (generate env baseDir order w).err = some e → e.op ≠ .goModInit baseDir →
          ∀ c ∈ calls, c.op ≠ .goModInit baseDir) := by
  rcases createDirs_cases env.faults (dirs baseDir) w with
    ⟨d1, d2⟩ | ⟨pre, d, post, cause, d1, d2, d3⟩
  · rcases writeFiles_cases env baseDir order (createDirs env.faults w (dirs baseDir)).world with
      ⟨f1, f2⟩ | ⟨pre, x, post, cause, f1, _, _, f2, f3⟩ | ⟨pre, x, post, cause, f1, f2, f3⟩
    · -- both loops without error: the command is run
      rw [generate_of_ok env baseDir order w d1 f1]
      unfold runGoModInit
      simp only
      by_cases hf : (env.goModInit baseDir baseDir
          (writeFiles env baseDir (createDirs env.faults w (dirs baseDir)).world
            order).world.fs).failed = true
      · rw [if_pos hf]
        refine ⟨dirCalls (dirs baseDir) ++ fileCalls order ++ [⟨.goModInit baseDir, false⟩],
          ?_, ?_, ?_, ?_⟩
        · simp only [f2, d2, List.append_assoc]
        · refine ⟨dirCalls (dirs baseDir) ++ fileCalls order, rfl, ?_, ?_⟩
          · intro c hc
            rcases List.mem_append.1 hc with h | h
            · exact dirCalls_ok _ c h
            · exact fileCalls_ok _ c h
          · simp [plan, GenError.op]
        · intro d cause h
          simp at h
        · intro e h hne
          simp only [Option.some.injEq] at h
          subst h
          exact absurd rfl hne
      · rw [if_neg hf]
        refine ⟨dirCalls (dirs baseDir) ++ fileCalls order ++ [⟨.goModInit baseDir, true⟩],
          ?_, ?_, ?_, ?_⟩
        · simp only [f2, d2, List.append_assoc]
        · refine ⟨by simp [plan], ?_⟩
          intro c hc
          rcases List.mem_append.1 hc with h | h
          · rcases List.mem_append.1 h with h | h
            · exact dirCalls_ok _ c h
            · exact fileCalls_ok _ c h
          · simp only [List.mem_singleton] at h
            subst h
            rfl
        · intro d cause h
          simp at h
        · intro e h
          simp at h
    · -- a template cannot be read
      rw [generate_of_files_err env baseDir order w _ d1 f2]
      refine ⟨dirCalls (dirs baseDir) ++ fileCalls pre ++ [⟨.readFile x.2, false⟩], ?_, ?_, ?_, ?_⟩
      · simp only [f3, d2, List.append_assoc]
      · refine ⟨dirCalls (dirs baseDir) ++ fileCalls pre, rfl, ?_, ?_⟩
        · intro c hc
          rcases List.mem_append.1 hc with h | h
          · exact dirCalls_ok _ c h
          · exact fileCalls_ok _ c h
        · rw [f1]
          simp only [plan, fileCalls_append, List.map_append, List.append_assoc]
          apply List.prefix_append_right_inj _ |>.2
          apply List.prefix_append_right_inj _ |>.2
          simp [fileCalls]
      · intro d cause h
        simp at h
      · intro e _ _ c hc
        rcases List.mem_append.1 hc with h | h
        · rcases List.mem_append.1 h with h | h
          · exact dirCalls_op_ne _ _ c h
          · exact fileCalls_op _ _ c h
        · simp only [List.mem_singleton] at h
          subst h
          simp
    · -- a file cannot be written
      rw [generate_of_files_err env baseDir order w _ d1 f2]
      refine ⟨dirCalls (dirs baseDir) ++ fileCalls pre
        ++ [⟨.readFile x.2, true⟩, ⟨.writeFile x.1, false⟩], ?_, ?_, ?_, ?_⟩
      · simp only [f3, d2, List.append_assoc]
      · refine ⟨dirCalls (dirs baseDir) ++ fileCalls pre ++ [⟨.readFile x.2, true⟩], ?_, ?_, ?_⟩
        · simp [GenError.op]
        · intro c hc
          rcases List.mem_append.1 hc with h | h
          · rcases List.mem_append.1 h with h | h
            · exact dirCalls_ok _ c h
            · exact fileCalls_ok _ c h
          · simp only [List.mem_singleton] at h
            subst h
            rfl
        · rw [f1]
          simp only [plan, fileCalls_append, List.map_append, List.append_assoc]
          apply List.prefix_append_right_inj _ |>.2
          apply List.prefix_append_right_inj _ |>.2
          simp [fileCalls]
      · intro d cause h
        simp at h
      · intro e _ _ c hc
        rcases List.mem_append.1 hc with h | h
        · rcases List.mem_append.1 h with h | h
          · exact dirCalls_op_ne _ _ c h
          · exact fileCalls_op _ _ c h
        · simp only [List.mem_cons, List.mem_singleton, List.not_mem_nil, or_false] at h
          rcases h with h | h <;> subst h <;> simp
  · -- a directory cannot be created
    rw [generate_of_dirs_err env baseDir order w _ d2]
    refine ⟨dirCalls pre ++ [⟨.mkdirAll d, false⟩], ?_, ?_, ?_, ?_⟩
    · simp only [d3, List.append_assoc]
    · refine ⟨dirCalls pre, rfl, dirCalls_ok _, ?_⟩
      rw [plan, d1]
      simp only [dirCalls_append, List.map_append, List.append_assoc]
      apply List.prefix_append_right_inj _ |>.2
      simp [dirCalls]
    · intro d0 cause0 _ c hc
      rcases List.mem_append.1 hc with h | h
      · exact dirCalls_op _ c h
      · simp only [List.mem_singleton] at h
        subst h
        exact ⟨d, rfl⟩
    · intro e _ _ c hc
      rcases List.mem_append.1 hc with h | h
      · exact dirCalls_op_ne _ _ c h
      · simp only [List.mem_singleton] at h
        subst h
        simp



/-! ## Claims about the tables and the run -/

theorem demo_createDirs :
    createDirs noFaults ⟨FS.empty, []⟩ (dirs demo) = ⟨none, ⟨demoDirState, dirCalls demoDirs⟩⟩ := by
  decide

theorem demo_keys : (templatePaths demo).map Prod.fst = demoFiles := by decide

theorem demo_templates : (templatePaths demo).map Prod.snd = templateNames := by decide

theorem demo_entries : ∀ e ∈ templatePaths demo,
    demoDirState.isDir e.1 = false ∧ demoDirState.isDir (Dir e.1) = true
      ∧ demoDirState.isFile (Dir e.1) = false := by
  decide

/-- C4 fails as stated: a store may hold all eight templates and one of them
may be empty.  With an empty `templates/Makefile` the run for `demo` on an
empty file system succeeds and the file `demo/Makefile` it writes is empty. -/
theorem empty_file_counterexample :
    (∀ t ∈ templateNames, (emptyMakefileFs t).isOk = true)
    ∧ (generate ⟨emptyMakefileFs, noFaults, cmdOk⟩ demo (templatePaths demo) ⟨FS.empty, []⟩).err
        = none
    ∧ (generate ⟨emptyMakefileFs, noFaults, cmdOk⟩ demo (templatePaths demo)
        ⟨FS.empty, []⟩).world.fs.readFile (str "demo/Makefile") = some [] := by
  decide


theorem Replace_ne_nil (s old new : Bytes) (hold : old ≠ []) (hs : s ≠ []) (hnew : new ≠ []) :
    Replace s old new ≠ [] := by
  rw [Replace_unfold s old new hold]
  cases Index s old with
  | none => exact hs
  | some i => simp [hnew]

theorem faults_eq_noFaults (faults : Faults) (hmk : ∀ p, faults.mkdir p = none)
    (hwr : ∀ p, faults.write p = none) : faults = noFaults := by
  obtain ⟨m, wr⟩ := faults
  have h1 : m = fun _ => none := funext hmk
  have h2 : wr = fun _ => none := funext hwr
  subst h1
  subst h2
  rfl

theorem perm_keys_nodup (baseDir : Bytes) (order : List (Bytes × Bytes))
    (hperm : order.Perm (templatePaths baseDir)) : (order.map Prod.fst).Nodup :=
  ((hperm.map Prod.fst).nodup_iff).2 (templatePaths_keys_nodup baseDir)

/-- Without error in the two first phases, from any world and for any order
of the table: the directories of `dirs` exist and every destination of the
table holds its rendered template. -/
theorem createAndWrite_state (env : Env) (baseDir : Bytes) (order : List (Bytes × Bytes))
    (w : World) (hperm : order.Perm (templatePaths baseDir))
    (h : (createAndWrite env baseDir order w).err = none) :
    (∀ d ∈ dirs baseDir, (createAndWrite env baseDir order w).world.fs.isDir d = true)
    ∧ (∀ e ∈ templatePaths baseDir, EntryOk env (createAndWrite env baseDir order w).world.fs e)
    ∧ (∀ e ∈ templatePaths baseDir, ∃ c, env.templateFs e.2 = .ok c ∧
        (createAndWrite env baseDir order w).world.fs.readFile e.1
          = some (Replace c token baseDir))
    ∧ (∀ p, p ∉ (templatePaths baseDir).map Prod.fst →
        (createAndWrite env baseDir order w).world.fs.readFile p = w.fs.readFile p) := by
  obtain ⟨h1, h2⟩ := createAndWrite_ok env baseDir order w h
  rw [h2] at h ⊢
  obtain ⟨k1, k2, k3⟩ := writeFiles_ok env baseDir order _ h
  have hdirs := writeFiles_dirs env baseDir order (createDirs env.faults w (dirs baseDir)).world
  refine ⟨?_, ?_, ?_, ?_⟩
  · intro d hd
    rw [isDir_of_dirs_eq hdirs d]
    exact createDirs_ok_isDir env.faults (dirs baseDir) w h1 d hd
  · intro e he
    exact k1 e (hperm.mem_iff.2 he)
  · intro e he
    exact k3 (perm_keys_nodup baseDir order hperm) e (hperm.mem_iff.2 he)
  · intro p hp
    rw [k2 p (fun hm => hp ((hperm.map Prod.fst).mem_iff.1 hm))]
    simp only [FS.readFile, createDirs_files env.faults (dirs baseDir) w]

/-- C4, amended.  On an empty file system, with a store that holds the eight
templates, each non-empty, and a file system whose calls are not refused,
the run for `demo` reports no error in its two first phases, whatever the
order of the table; it then runs `go mod init` on a world in which exactly
the eight files of `demo/` exist, each non-empty, the six directories exist,
and the external command has not been invoked yet. -/
theorem generate_demo (env : Env) (order : List (Bytes × Bytes))
    (hperm : order.Perm (templatePaths demo))
    (hmk : ∀ p, env.faults.mkdir p = none) (hwr : ∀ p, env.faults.write p = none)
    (hstore : ∀ t ∈ templateNames, ∃ c, env.templateFs t = .ok c ∧ c ≠ []) :
    (createAndWrite env demo order ⟨FS.empty, []⟩).err = none
    ∧ generate env demo order ⟨FS.empty, []⟩
        = runGoModInit env demo (createAndWrite env demo order ⟨FS.empty, []⟩).world
    ∧ (∀ p, ((createAndWrite env demo order ⟨FS.empty, []⟩).world.fs.readFile p).isSome = true
        ↔ p ∈ demoFiles)
    ∧ (∀ p c, (createAndWrite env demo order ⟨FS.empty, []⟩).world.fs.readFile p = some c →
        c ≠ [])
    ∧ (∀ d ∈ demoDirs, FS.empty.isDir d = false
        ∧ (createAndWrite env demo order ⟨FS.empty, []⟩).world.fs.isDir d = true)
    ∧ (∀ c ∈ (createAndWrite env demo order ⟨FS.empty, []⟩).world.log,
        c.op ≠ .goModInit demo) := by
  have hfaults := faults_eq_noFaults env.faults hmk hwr
  have hD : createDirs env.faults ⟨FS.empty, []⟩ (dirs demo)
      = ⟨none, ⟨demoDirState, dirCalls demoDirs⟩⟩ := by
    rw [hfaults]
    exact demo_createDirs
  have hT : ∀ e ∈ templatePaths demo, ∃ c, env.templateFs e.2 = .ok c ∧ c ≠ [] := by
    intro e he
    apply hstore
    rw [← demo_templates]
    exact List.mem_map_of_mem _ he
  have hcw : createAndWrite env demo order ⟨FS.empty, []⟩
      = writeFiles env demo ⟨demoDirState, dirCalls demoDirs⟩ order := by
    rw [createAndWrite_of_dirs_ok env demo order _ (by rw [hD]), hD]
  have herr : (createAndWrite env demo order ⟨FS.empty, []⟩).err = none := by
    rw [hcw]
    apply writeFiles_suff
    intro e he
    have he2 := hperm.mem_iff.1 he
    obtain ⟨c, hc, _⟩ := hT e he2
    obtain ⟨a1, a2, a3⟩ := demo_entries e he2
    exact ⟨⟨c, hc⟩, a1, a2, a3, hwr _⟩
  obtain ⟨s1, _, s3, s4⟩ := createAndWrite_state env demo order ⟨FS.empty, []⟩ hperm herr
  refine ⟨herr, generate_eq_runGoModInit env demo order _ herr, ?_, ?_, ?_, ?_⟩
  · intro p
    rw [← demo_keys]
    constructor
    · intro hp
      by_contra hnot
      rw [s4 p hnot] at hp
      simp [FS.readFile, FS.empty] at hp
    · intro hp
      obtain ⟨e, he, hep⟩ := List.mem_map.1 hp
      obtain ⟨c, _, hr⟩ := s3 e he
      rw [← hep, hr]
      rfl
  · intro p c hp
    by_cases hk : p ∈ (templatePaths demo).map Prod.fst
    · obtain ⟨e, he, hep⟩ := List.mem_map.1 hk
      obtain ⟨c0, hc0, hr⟩ := s3 e he
      obtain ⟨c1, hc1, hne⟩ := hT e he
      rw [hc0] at hc1
      cases hc1
      rw [← hep, hr] at hp
      cases hp
      exact Replace_ne_nil c0 token demo token_ne_nil hne (by decide)
    · rw [s4 p hk] at hp
      simp [FS.readFile, FS.empty] at hp
  · intro d hd
    constructor
    · revert d
      decide
    · apply s1
      have : dirs demo = demoDirs := by decide
      rw [this]
      exact hd
  · intro c hc
    have hlog : (createAndWrite env demo order ⟨FS.empty, []⟩).world.log
        = dirCalls demoDirs ++ fileCalls order := by
      rw [hcw]
      rcases writeFiles_cases env demo order ⟨demoDirState, dirCalls demoDirs⟩ with
        ⟨_, f2⟩ | ⟨_, _, _, _, _, _, _, f2, _⟩ | ⟨_, _, _, _, _, f2, _⟩
      · exact f2
      · rw [hcw, f2] at herr
        simp at herr
      · rw [hcw, f2] at herr
        simp at herr
    rw [hlog] at hc
    rcases List.mem_append.1 hc with h | h
    · exact dirCalls_op_ne _ _ c h
    · exact fileCalls_op _ _ c h

/-- Witness for C4, amended: the sample store, the table in source order. -/
theorem generate_demo_witness :
    ((templatePaths demo).Perm (templatePaths demo)
      ∧ (∀ t ∈ templateNames, ∃ c, sampleFs t = .ok c ∧ c ≠ []))
    ∧ (createAndWrite ⟨sampleFs, noFaults, cmdOk⟩ demo (templatePaths demo) ⟨FS.empty, []⟩).err
        = none
    ∧ (∀ p, ((createAndWrite ⟨sampleFs, noFaults, cmdOk⟩ demo (templatePaths demo)
          ⟨FS.empty, []⟩).world.fs.readFile p).isSome = true ↔ p ∈ demoFiles) :=
  have hstore : ∀ t ∈ templateNames, ∃ c, sampleFs t = .ok c ∧ c ≠ [] := by
    intro t ht
    refine ⟨str "module " ++ token, ?_, by decide⟩
    unfold sampleFs
    rw [if_pos ht]
  have h := generate_demo ⟨sampleFs, noFaults, cmdOk⟩ (templatePaths demo) (List.Perm.refl _)
    (fun _ => rfl) (fun _ => rfl) hstore
  ⟨⟨List.Perm.refl _, hstore⟩, h.1, h.2.2.1⟩



/-- C5 fails as stated: the files of the entries visited before the missing
template are written.  With `templates/Makefile` missing and the table
visited in source order, the run for `demo` returns the error of reading
`templates/Makefile` after it has written the seven other files. -/
theorem missing_template_counterexample :
    noMakefileFs (str "templates/Makefile") = .error (notExist (str "templates/Makefile"))
    ∧ (generate ⟨noMakefileFs, noFaults, cmdOk⟩ demo (templatePaths demo) ⟨FS.empty, []⟩).err
        = some (.readTemplate (str "templates/Makefile") (notExist (str "templates/Makefile")))
    ∧ ((generate ⟨noMakefileFs, noFaults, cmdOk⟩ demo (templatePaths demo)
        ⟨FS.empty, []⟩).world.fs.files.map Prod.fst)
        = [str "demo/views/index.html", str "demo/public/css/style.css",
            str "demo/public/js/app.js", str "demo/public/lib/htmx.min.js",
            str "demo/routes/userRoutes.go", str "demo/controllers/CreateUserHandler.go",
            str "demo/app.go"] :=
  ⟨rfl, by decide, by decide⟩

/-- When the file loop stops at a template that cannot be read, and the
templates of the entries in front of it can be read, these entries were
written without error and the file system is the one they left. -/
theorem writeFiles_read_err_state (env : Env) (baseDir : Bytes) :
    ∀ (pre : List (Bytes × Bytes)) (x : Bytes × Bytes) (post : List (Bytes × Bytes))
      (w : World) (cause : Bytes),
    (∀ y ∈ pre, ∃ c, env.templateFs y.2 = .ok c) →
    env.templateFs x.2 = .error cause →
    (writeFiles env baseDir w (pre ++ x :: post)).err = some (.readTemplate x.2 cause) →
    (writeFiles env baseDir w pre).err = none
      ∧ (writeFiles env baseDir w (pre ++ x :: post)).world.fs
          = (writeFiles env baseDir w pre).world.fs := by
  intro pre
  induction pre with
  | nil =>
    intro x post w cause _ hx _
    rw [List.nil_append, writeFiles_cons_read_err env baseDir w x post cause hx]
    exact ⟨rfl, rfl⟩
  | cons y pre ih =>
    intro x post w cause hpre hx herr
    rw [List.cons_append] at herr ⊢
    obtain ⟨c, hy⟩ := hpre y (List.mem_cons_self _ _)
    cases hw : WriteFile env.faults w.fs y.1 (Replace c token baseDir) with
    | mk fs1 e =>
      cases e with
      | some e =>
        rw [writeFiles_cons_write_err env baseDir w y (pre ++ x :: post) c fs1 e hy hw] at herr
        simp at herr
      | none =>
        rw [writeFiles_cons_ok env baseDir w y (pre ++ x :: post) c fs1 hy hw] at herr ⊢
        rw [writeFiles_cons_ok env baseDir w y pre c fs1 hy hw]
        exact ih x post _ cause (fun z hz => hpre z (List.mem_cons_of_mem _ hz)) hx herr

/-- C5, amended.  When the store lacks a template of the table, the run
fails whatever the order of the table, and the external command is not
invoked.  Unless a directory cannot be created or a file cannot be written,
the error is the error of reading the first missing template in the order
visited; the calls made are the directory creations, the reading and writing
of every entry in front of that template, and the failed reading; in the
file system the run leaves, the directories of `dirs` exist, every entry
visited in front of the missing template holds its rendered template, and
every other path holds what it held before the run (no file is written when
the missing template is visited first). -/
theorem generate_missing_template (env : Env) (baseDir : Bytes) (order : List (Bytes × Bytes))
    (w : World) (hperm : order.Perm (templatePaths baseDir))
    (hmiss : ∃ e ∈ templatePaths baseDir, ∃ cause, env.templateFs e.2 = .error cause) :
    ∃ calls, (generate env baseDir order w).world.log = w.log ++ calls
      ∧ (∀ c ∈ calls, c.op ≠ .goModInit baseDir)
      ∧ ((∃ d cause, (generate env baseDir order w).err = some (.createDir d cause))
        ∨ (∃ p cause, (generate env baseDir order w).err = some (.createFile p cause))
        ∨ (∃ pre x post cause, order = pre ++ x :: post
            ∧ env.templateFs x.2 = .error cause
            ∧ (generate env baseDir order w).err = some (.readTemplate x.2 cause)
            ∧ calls = dirCalls (dirs baseDir) ++ fileCalls pre ++ [⟨.readFile x.2, false⟩]
            ∧ (∀ d ∈ dirs baseDir, (generate env baseDir order w).world.fs.isDir d = true)
            ∧ (∀ y ∈ pre, ∃ c, env.templateFs y.2 = .ok c ∧
                (generate env baseDir order w).world.fs.readFile y.1
                  = some (Replace c token baseDir))
            ∧ (∀ p, p ∉ pre.map Prod.fst →
                (generate env baseDir order w).world.fs.readFile p = w.fs.readFile p)
            ∧ (pre = [] → (generate env baseDir order w).world.fs.files = w.fs.files))) := by
  rcases createDirs_cases env.faults (dirs baseDir) w with
    ⟨d1, d2⟩ | ⟨pre, d, post, cause, _, d2, d3⟩
  · rcases writeFiles_cases env baseDir order (createDirs env.faults w (dirs baseDir)).world with
      ⟨f1, _⟩ | ⟨pre, x, post, cause, f1, f0, fpre, f2, f3⟩ | ⟨pre, x, post, cause, _, f2, f3⟩
    · -- the file loop cannot succeed: it reads every template of the table
      exfalso
      obtain ⟨e, he, cause, hc⟩ := hmiss
      obtain ⟨k1, _, _⟩ := writeFiles_ok env baseDir order _ f1
      obtain ⟨⟨c, hok⟩, _⟩ := k1 e (hperm.mem_iff.2 he)
      rw [hok] at hc
      cases hc
    · have hg := generate_of_files_err env baseDir order w _ d1 f2
      have f2s := f2
      rw [f1] at f2s
      obtain ⟨p1, p2⟩ := writeFiles_read_err_state env baseDir pre x post
        (createDirs env.faults w (dirs baseDir)).world cause fpre f0 f2s
      obtain ⟨_, k2, k3⟩ := writeFiles_ok env baseDir pre _ p1
      have hfs : (generate env baseDir order w).world.fs
          = (writeFiles env baseDir (createDirs env.faults w (dirs baseDir)).world pre).world.fs := by
        rw [hg]
        simp only
        rw [f1]
        exact p2
      have hnd : (pre.map Prod.fst).Nodup := by
        have := perm_keys_nodup baseDir order hperm
        rw [f1, List.map_append] at this
        exact (List.nodup_append.1 this).1
      have hfiles := createDirs_files env.faults (dirs baseDir) w
      refine ⟨dirCalls (dirs baseDir) ++ fileCalls pre ++ [⟨.readFile x.2, false⟩], ?_, ?_,
        Or.inr (Or.inr ⟨pre, x, post, cause, f1, f0, by rw [hg], rfl, ?_, ?_, ?_, ?_⟩)⟩
      · rw [hg]
        simp only [f3, d2, List.append_assoc]
      · intro c hc
        rcases List.mem_append.1 hc with h | h
        · rcases List.mem_append.1 h with h | h
          · exact dirCalls_op_ne _ _ c h
          · exact fileCalls_op _ _ c h
        · simp only [List.mem_singleton] at h
          subst h
          simp
      · intro d hd
        rw [hfs, isDir_of_dirs_eq (writeFiles_dirs env baseDir pre _) d]
        exact createDirs_ok_isDir env.faults (dirs baseDir) w d1 d hd
      · intro y hy
        rw [hfs]
        exact k3 hnd y hy
      · intro p hp
        rw [hfs, k2 p hp]
        simp only [FS.readFile, hfiles]
      · intro h0
        rw [hfs, h0]
        exact hfiles
    · rw [generate_of_files_err env baseDir order w _ d1 f2]
      refine ⟨dirCalls (dirs baseDir) ++ fileCalls pre
        ++ [⟨.readFile x.2, true⟩, ⟨.writeFile x.1, false⟩], ?_, ?_,
        Or.inr (Or.inl ⟨x.1, cause, rfl⟩)⟩
      · simp only [f3, d2, List.append_assoc]
      · intro c hc
        rcases List.mem_append.1 hc with h | h
        · rcases List.mem_append.1 h with h | h
          · exact dirCalls_op_ne _ _ c h
          · exact fileCalls_op _ _ c h
        · simp only [List.mem_cons, List.mem_singleton, List.not_mem_nil, or_false] at h
          rcases h with h | h <;> subst h <;> simp
  · rw [generate_of_dirs_err env baseDir order w _ d2]
    refine ⟨dirCalls pre ++ [⟨.mkdirAll d, false⟩], ?_, ?_, Or.inl ⟨d, cause, rfl⟩⟩
    · simp only [d3, List.append_assoc]
    · intro c hc
      rcases List.mem_append.1 hc with h | h
      · exact dirCalls_op_ne _ _ c h
      · simp only [List.mem_singleton] at h
        subst h
        simp

/-- Witness for C5, amended: the store without `templates/Makefile`, the
table in source order, where the missing template is visited last. -/
theorem generate_missing_template_witness :
    ((templatePaths demo).Perm (templatePaths demo)
      ∧ ∃ e ∈ templatePaths demo, ∃ cause, noMakefileFs e.2 = .error cause)
    ∧ ∃ calls, (generate ⟨noMakefileFs, noFaults, cmdOk⟩ demo (templatePaths demo)
          ⟨FS.empty, []⟩).world.log = [] ++ calls
      ∧ ∀ c ∈ calls, c.op ≠ .goModInit demo :=
  have hmiss : ∃ e ∈ templatePaths demo, ∃ cause, noMakefileFs e.2 = .error cause :=
    ⟨(Join [demo, str "Makefile"], str "templates/Makefile"), by decide,
      notExist (str "templates/Makefile"), rfl⟩
  have h := generate_missing_template ⟨noMakefileFs, noFaults, cmdOk⟩ demo (templatePaths demo)
    ⟨FS.empty, []⟩ (List.Perm.refl _) hmiss
  ⟨⟨List.Perm.refl _, hmiss⟩, h.elim fun calls hc => ⟨calls, hc.1, hc.2.1⟩⟩

/-- C6. When the directories are created and the files are written without
error and `go mod init` then fails, `generate` returns the error whose
message ends with the combined output of the command, verbatim, and leaves
the file system as it was when the command was run: the directories exist
and every destination holds its rendered template (no rollback). -/
theorem generate_command_failure (env : Env) (baseDir : Bytes) (order : List (Bytes × Bytes))
    (w : World) (hperm : order.Perm (templatePaths baseDir))
    (hcw : (createAndWrite env baseDir order w).err = none)
    (hfail : (env.goModInit baseDir baseDir
      (createAndWrite env baseDir order w).world.fs).failed = true) :
    (generate env baseDir order w).err
      = some (.goModInit baseDir
          (env.goModInit baseDir baseDir (createAndWrite env baseDir order w).world.fs).output)
    ∧ (GenError.goModInit baseDir
          (env.goModInit baseDir baseDir
            (createAndWrite env baseDir order w).world.fs).output).message
        = str "error running \x27go mod init " ++ baseDir ++ str "\x27: "
          ++ (env.goModInit baseDir baseDir (createAndWrite env baseDir order w).world.fs).output
    ∧ (generate env baseDir order w).world.fs = (createAndWrite env baseDir order w).world.fs
    ∧ (∀ d ∈ dirs baseDir, (generate env baseDir order w).world.fs.isDir d = true)
    ∧ (∀ e ∈ templatePaths baseDir, ∃ c, env.templateFs e.2 = .ok c ∧
        (generate env baseDir order w).world.fs.readFile e.1 = some (Replace c token baseDir)) := by
  obtain ⟨s1, _, s3, _⟩ := createAndWrite_state env baseDir order w hperm hcw
  have hg := generate_eq_runGoModInit env baseDir order w hcw
  have hfs : (generate env baseDir order w).world.fs
      = (createAndWrite env baseDir order w).world.fs := by
    rw [hg]
    unfold runGoModInit
    simp only [hfail, if_true]
  refine ⟨?_, rfl, hfs, ?_, ?_⟩
  · rw [hg]
    unfold runGoModInit
    simp only [hfail, if_true]
  · rw [hfs]
    exact s1
  · rw [hfs]
    exact s3

/-- Witness for C6: the sample store and a command that fails. -/
theorem generate_command_failure_witness :
    ((templatePaths demo).Perm (templatePaths demo)
      ∧ (createAndWrite ⟨sampleFs, noFaults, cmdFails⟩ demo (templatePaths demo)
          ⟨FS.empty, []⟩).err = none
      ∧ (cmdFails demo demo (createAndWrite ⟨sampleFs, noFaults, cmdFails⟩ demo
          (templatePaths demo) ⟨FS.empty, []⟩).world.fs).failed = true)
    ∧ (generate ⟨sampleFs, noFaults, cmdFails⟩ demo (templatePaths demo) ⟨FS.empty, []⟩).err
        = some (.goModInit demo (str "go: cannot determine module path for source directory"))
    ∧ (generate ⟨sampleFs, noFaults, cmdFails⟩ demo (templatePaths demo)
        ⟨FS.empty, []⟩).world.fs.readFile (str "demo/app.go") = some (str "module demo") :=
  have hcw : (createAndWrite ⟨sampleFs, noFaults, cmdFails⟩ demo (templatePaths demo)
      ⟨FS.empty, []⟩).err = none := by decide
  have h := generate_command_failure ⟨sampleFs, noFaults, cmdFails⟩ demo (templatePaths demo)
    ⟨FS.empty, []⟩ (List.Perm.refl _) hcw rfl
  ⟨⟨List.Perm.refl _, hcw, rfl⟩, h.1, by decide⟩

theorem runGoModInit_fs (env : Env) (baseDir : Bytes) (w : World) :
    (runGoModInit env baseDir w).world.fs = w.fs := by
  unfold runGoModInit
  simp only
  split <;> rfl

/-- A run without error went through its two first phases without error,
and the file system it leaves is the one they left. -/
theorem generate_ok (env : Env) (baseDir : Bytes) (order : List (Bytes × Bytes)) (w : World)
    (h : (generate env baseDir order w).err = none) :
    (createAndWrite env baseDir order w).err = none
    ∧ (generate env baseDir order w).world.fs = (createAndWrite env baseDir order w).world.fs := by
  cases h1 : (createDirs env.faults w (dirs baseDir)).err with
  | some e =>
    rw [generate_of_dirs_err env baseDir order w e h1] at h
    simp at h
  | none =>
    cases h2 : (writeFiles env baseDir (createDirs env.faults w (dirs baseDir)).world order).err with
    | some e =>
      rw [generate_of_files_err env baseDir order w e h1 h2] at h
      simp at h
    | none =>
      rw [generate_of_ok env baseDir order w h1 h2,
        createAndWrite_of_dirs_ok env baseDir order w h1, runGoModInit_fs]
      exact ⟨h2, rfl⟩

/-- In a world where the directories of `dirs` exist and every destination
holds its rendered template, the two first phases report no error and change
nothing in the file system. -/
theorem createAndWrite_rerun (env : Env) (baseDir : Bytes) (order : List (Bytes × Bytes))
    (w : World) (hperm : order.Perm (templatePaths baseDir))
    (hdirs : ∀ d ∈ dirs baseDir, w.fs.isDir d = true)
    (hentries : ∀ e ∈ templatePaths baseDir, EntryOk env w.fs e)
    (hfiles : ∀ e ∈ templatePaths baseDir, ∃ c, env.templateFs e.2 = .ok c ∧
      w.fs.readFile e.1 = some (Replace c token baseDir)) :
    createAndWrite env baseDir order w
      = ⟨none, ⟨w.fs, w.log ++ dirCalls (dirs baseDir) ++ fileCalls order⟩⟩ := by
  have hd := createDirs_noop env.faults (dirs baseDir) w hdirs
  rw [createAndWrite_of_dirs_ok env baseDir order _ (by rw [hd]), hd]
  rw [writeFiles_idem env baseDir order]
  intro e he
  have he2 := hperm.mem_iff.1 he
  exact ⟨hentries e he2, hfiles e he2⟩

/-- C8. After a run of `generate` without error, running its directory loop
and its file loop again on the world it left, for the same store and project
name and any order of the table, reports no error and leaves the file system
exactly as it was: every destination file keeps its content, the rendered
template. -/
theorem createAndWrite_again (env : Env) (baseDir : Bytes) (order1 order2 : List (Bytes × Bytes))
    (w : World) (hp1 : order1.Perm (templatePaths baseDir))
    (hp2 : order2.Perm (templatePaths baseDir))
    (h1 : (generate env baseDir order1 w).err = none) :
    createAndWrite env baseDir order2 (generate env baseDir order1 w).world
      = ⟨none, ⟨(generate env baseDir order1 w).world.fs,
          (generate env baseDir order1 w).world.log ++ dirCalls (dirs baseDir)
            ++ fileCalls order2⟩⟩
    ∧ (∀ e ∈ templatePaths baseDir, ∃ c, env.templateFs e.2 = .ok c ∧
        (generate env baseDir order1 w).world.fs.readFile e.1
          = some (Replace c token baseDir)) := by
  obtain ⟨hcw, hfs⟩ := generate_ok env baseDir order1 w h1
  obtain ⟨s1, s2, s3, _⟩ := createAndWrite_state env baseDir order1 w hp1 hcw
  rw [← hfs] at s1 s2 s3
  exact ⟨createAndWrite_rerun env baseDir order2 _ hp2 s1 s2 s3, s3⟩

/-- Witness for C8: a run for `demo` on the sample store, then the two loops
again, visiting the table in reverse order. -/
theorem createAndWrite_again_witness :
    ((templatePaths demo).Perm (templatePaths demo)
      ∧ (templatePaths demo).reverse.Perm (templatePaths demo)
      ∧ (generate ⟨sampleFs, noFaults, cmdOk⟩ demo (templatePaths demo)
          ⟨FS.empty, []⟩).err = none)
    ∧ (createAndWrite ⟨sampleFs, noFaults, cmdOk⟩ demo (templatePaths demo).reverse
        (generate ⟨sampleFs, noFaults, cmdOk⟩ demo (templatePaths demo)
          ⟨FS.empty, []⟩).world).err = none
    ∧ (createAndWrite ⟨sampleFs, noFaults, cmdOk⟩ demo (templatePaths demo).reverse
        (generate ⟨sampleFs, noFaults, cmdOk⟩ demo (templatePaths demo)
          ⟨FS.empty, []⟩).world).world.fs
      = (generate ⟨sampleFs, noFaults, cmdOk⟩ demo (templatePaths demo)
          ⟨FS.empty, []⟩).world.fs :=
  have h1 : (generate ⟨sampleFs, noFaults, cmdOk⟩ demo (templatePaths demo)
      ⟨FS.empty, []⟩).err = none := by decide
  have h := createAndWrite_again ⟨sampleFs, noFaults, cmdOk⟩ demo (templatePaths demo)
    (templatePaths demo).reverse ⟨FS.empty, []⟩ (List.Perm.refl _) (List.reverse_perm _) h1
  ⟨⟨List.Perm.refl _, List.reverse_perm _, h1⟩, by rw [h.1], by rw [h.1]⟩

/-- C9 fails as stated: for the project name `demo` the destination
`demo/app.go` is in the table, its parent directory is `demo`, and `demo` is
not a member of `dirs`. -/
theorem parent_not_in_dirs_counterexample :
    (str "demo/app.go", str "templates/go/app.go") ∈ templatePaths demo
    ∧ Dir (str "demo/app.go") = str "demo"
    ∧ str "demo" ∉ dirs demo := by
  decide

theorem norm_Clean (p : Bytes) : norm (Clean p) = norm p := by
  rw [Clean_eq_render, norm_render _ (norm_valid p)]

/-- A path joined from `d` and one or two ordinary elements is not the
cleaned `d`. -/
theorem Clean_ne_Join (d leaf : Bytes) (hl : Normal leaf) : Clean d ≠ Join [d, leaf] := by
  intro h
  have := congrArg (fun p => (norm p).names.length) h
  simp only [norm_Clean, norm_Join d leaf hl, pushName, List.length_append,
    List.length_singleton] at this
  omega

theorem Clean_ne_Join_Join (d mid leaf : Bytes) (hm : Normal mid) (hl : Normal leaf) :
    Clean d ≠ Join [Join [d, mid], leaf] := by
  intro h
  have := congrArg (fun p => (norm p).names.length) h
  simp only [norm_Clean, norm_Join _ leaf hl, norm_Join d mid hm, pushName, List.length_append,
    List.length_singleton] at this
  omega

/-- C9, amended.  For every project name, the parent directories
(`filepath.Dir`) of the eight destinations are, in the order of the table,
the members `viewDir`, `publicCSSDir`, `publicJSDir`, `publicLibDir`,
`routesDir`, `controllersDir` of `dirs` and, for `app.go` and `Makefile`, the
project root `filepath.Clean(baseDir)`; the project root is not a member of
`dirs`, it is the parent of the member `viewDir`. -/
theorem destination_parents (baseDir : Bytes) :
    (templatePaths baseDir).map (fun e => Dir e.1)
      = [viewDir baseDir, publicCSSDir baseDir, publicJSDir baseDir, publicLibDir baseDir,
          routesDir baseDir, controllersDir baseDir, Clean baseDir, Clean baseDir]
    ∧ dirs baseDir
      = [viewDir baseDir, publicCSSDir baseDir, publicJSDir baseDir, publicLibDir baseDir,
          routesDir baseDir, controllersDir baseDir]
    ∧ Clean baseDir ∉ dirs baseDir
    ∧ Dir (viewDir baseDir) = Clean baseDir := by
  obtain ⟨n1, n2, n3, n4, n5, n6, n7, n8⟩ := normal_leaves
  obtain ⟨m1, m2, m3, m4, m5, m6, m7⟩ := normal_dirs
  refine ⟨?_, rfl, ?_, Dir_Join baseDir _ m1⟩
  · simp only [templatePaths, List.map_cons, List.map_nil]
    rw [Dir_Join _ _ n1, Dir_Join _ _ n2, Dir_Join _ _ n3, Dir_Join _ _ n4, Dir_Join _ _ n5,
      Dir_Join _ _ n6, Dir_Join _ _ n7, Dir_Join _ _ n8]
    simp only [viewDir, publicCSSDir, publicJSDir, publicLibDir, routesDir, controllersDir]
    rw [Clean_Join _ _ m1, Clean_Join _ _ m3, Clean_Join _ _ m4, Clean_Join _ _ m5,
      Clean_Join _ _ m6, Clean_Join _ _ m7]
  · simp only [dirs, viewDir, publicCSSDir, publicJSDir, publicLibDir, routesDir,
      controllersDir, publicDir, List.mem_cons, List.mem_singleton, List.not_mem_nil,
      or_false, not_or]
    exact ⟨Clean_ne_Join _ _ m1, Clean_ne_Join_Join _ _ _ m2 m3, Clean_ne_Join_Join _ _ _ m2 m4,
      Clean_ne_Join_Join _ _ _ m2 m5, Clean_ne_Join _ _ m6, Clean_ne_Join _ _ m7⟩

/-- C10. For every project name the eight destination paths are pairwise
different, and when the file loop reports no error for two orders of the
table, started in the same world, every path holds the same content
afterwards: the outcome does not depend on the order in which the map is
visited. -/
theorem write_order_irrelevant (env : Env) (baseDir : Bytes)
    (order1 order2 : List (Bytes × Bytes)) (w : World)
    (hp1 : order1.Perm (templatePaths baseDir)) (hp2 : order2.Perm (templatePaths baseDir))
    (h1 : (writeFiles env baseDir w order1).err = none)
    (h2 : (writeFiles env baseDir w order2).err = none) :
    ((templatePaths baseDir).map Prod.fst).Nodup
    ∧ (∀ p, (writeFiles env baseDir w order1).world.fs.readFile p
        = (writeFiles env baseDir w order2).world.fs.readFile p)
    ∧ (writeFiles env baseDir w order1).world.fs.dirs
        = (writeFiles env baseDir w order2).world.fs.dirs := by
  obtain ⟨_, a2, a3⟩ := writeFiles_ok env baseDir order1 w h1
  obtain ⟨_, b2, b3⟩ := writeFiles_ok env baseDir order2 w h2
  refine ⟨templatePaths_keys_nodup baseDir, ?_, ?_⟩
  · intro p
    by_cases hk : p ∈ (templatePaths baseDir).map Prod.fst
    · obtain ⟨e, he, hep⟩ := List.mem_map.1 hk
      obtain ⟨c1, hc1, r1⟩ := a3 (perm_keys_nodup baseDir order1 hp1) e (hp1.mem_iff.2 he)
      obtain ⟨c2, hc2, r2⟩ := b3 (perm_keys_nodup baseDir order2 hp2) e (hp2.mem_iff.2 he)
      rw [hc1] at hc2
      cases hc2
      rw [← hep, r1, r2]
    · rw [a2 p (fun hm => hk ((hp1.map Prod.fst).mem_iff.1 hm)),
        b2 p (fun hm => hk ((hp2.map Prod.fst).mem_iff.1 hm))]
  · rw [writeFiles_dirs, writeFiles_dirs]

/-- Witness for C10: the table in source order and in reverse order, for
`demo` and the sample store, after the directories were created. -/
theorem write_order_irrelevant_witness :
    ((templatePaths demo).Perm (templatePaths demo)
      ∧ (templatePaths demo).reverse.Perm (templatePaths demo)
      ∧ (writeFiles ⟨sampleFs, noFaults, cmdOk⟩ demo ⟨demoDirState, []⟩
          (templatePaths demo)).err = none
      ∧ (writeFiles ⟨sampleFs, noFaults, cmdOk⟩ demo ⟨demoDirState, []⟩
          (templatePaths demo).reverse).err = none)
    ∧ ∀ p, (writeFiles ⟨sampleFs, noFaults, cmdOk⟩ demo ⟨demoDirState, []⟩
          (templatePaths demo)).world.fs.readFile p
        = (writeFiles ⟨sampleFs, noFaults, cmdOk⟩ demo ⟨demoDirState, []⟩
          (templatePaths demo).reverse).world.fs.readFile p :=
  have h1 : (writeFiles ⟨sampleFs, noFaults, cmdOk⟩ demo ⟨demoDirState, []⟩
      (templatePaths demo)).err = none := by decide
  have h2 : (writeFiles ⟨sampleFs, noFaults, cmdOk⟩ demo ⟨demoDirState, []⟩
      (templatePaths demo).reverse).err = none := by decide
  have h := write_order_irrelevant ⟨sampleFs, noFaults, cmdOk⟩ demo (templatePaths demo)
    (templatePaths demo).reverse ⟨demoDirState, []⟩ (List.Perm.refl _) (List.reverse_perm _) h1 h2
  ⟨⟨List.Perm.refl _, List.reverse_perm _, h1, h2⟩, h.2.1⟩



/-! ## The project root -/

/-- The cleaned `d` is an ancestor of `filepath.Join(d, leaf)`, unless it is
the working directory or the root, which exist without being created. -/
theorem Clean_mem_ancestors (d leaf : Bytes) (hl : Normal leaf) :
    Clean d ∈ ancestors (Join [d, leaf]) ∨ implicitDir (Clean d) = true := by
  have hv := norm_valid d
  have hpush := sim_push (norm d) hv leaf
  have hne : renderOut (pushName (norm d) leaf) ≠ [] := by
    have : renderOut (pushName (norm d) leaf)
        = renderOut { norm d with names := (norm d).names ++ [leaf] } := rfl
    rw [this, ← hpush]
    simp [hl.ne_nil]
  have hJ : Join [d, leaf]
      = (if ((norm d).rooted && (renderOut (norm d)).length != 1)
            || (!(norm d).rooted && (renderOut (norm d)).length != 0)
          then renderOut (norm d) ++ [sep] else renderOut (norm d)) ++ leaf := by
    rw [Join_eq_render d leaf hl, hpush]
    unfold render
    rw [if_neg (by simpa using hne)]
    rfl
  by_cases hE : (norm d).elems = []
  · right
    obtain ⟨h1, h2⟩ := elems_eq_nil (norm d) hE
    rw [Clean_eq_render]
    generalize norm d = nf at h1 h2
    obtain ⟨rooted, ups, names⟩ := nf
    simp only at h1 h2
    subst h1
    subst h2
    cases rooted <;> decide
  · left
    have hJ2 : stringsJoin [sep] (norm d).elems ≠ [] :=
      stringsJoin_ne_nil _ _ hE hv.elems_ne_nil
    have hpos : 0 < (stringsJoin [sep] (norm d).elems).length := List.length_pos.2 hJ2
    have hro : renderOut (norm d) ≠ [] := by
      unfold renderOut
      simp [hJ2]
    have hC : Clean d = renderOut (norm d) := by
      rw [Clean_eq_render]
      unfold render
      rw [if_neg (by simpa using hro)]
    have hcond : (((norm d).rooted && (renderOut (norm d)).length != 1)
        || (!(norm d).rooted && (renderOut (norm d)).length != 0)) = true := by
      cases hrt : (norm d).rooted
      · have : (renderOut (norm d)).length ≠ 0 := by simpa using hro
        simp [this]
      · have : (renderOut (norm d)).length ≠ 1 := by
          simp only [renderOut, hrt, if_true, List.length_append, List.length_singleton]
          omega
        simp [this]
    rw [if_pos hcond] at hJ
    have hlen : 0 < (renderOut (norm d)).length := List.length_pos.2 hro
    rw [hJ, hC]
    unfold ancestors
    rw [List.mem_filterMap]
    refine ⟨(renderOut (norm d)).length, ?_, ?_⟩
    · rw [List.mem_range]
      simp only [List.length_append, List.length_singleton]
      omega
    · have hget : (renderOut (norm d) ++ [sep] ++ leaf).get? (renderOut (norm d)).length
          = some sep := by
        rw [List.get?_eq_getElem?, List.append_assoc,
          List.getElem?_append_right (Nat.le_refl _)]
        simp
      rw [if_pos hget, if_neg (by omega)]
      simp

/-- When the directory loop ends without error from a state in which
`viewDir` is not a directory yet, the project root is a directory
afterwards: `os.MkdirAll` made sure of the ancestors of `viewDir`. -/
theorem createDirs_root_isDir (faults : Faults) (w : World) (baseDir : Bytes)
    (hfresh : w.fs.isDir (viewDir baseDir) = false)
    (hok : (createDirs faults w (dirs baseDir)).err = none) :
    (createDirs faults w (dirs baseDir)).world.fs.isDir (Clean baseDir) = true := by
  have hdirs : dirs baseDir = viewDir baseDir :: [publicCSSDir baseDir, publicJSDir baseDir,
      publicLibDir baseDir, routesDir baseDir, controllersDir baseDir] := rfl
  rw [hdirs] at hok ⊢
  cases hm : MkdirAll faults w.fs (viewDir baseDir) with
  | mk fs1 e =>
    cases e with
    | some e =>
      rw [createDirs_cons_err faults w _ _ fs1 e hm] at hok
      simp at hok
    | none =>
      rw [createDirs_cons_ok faults w _ _ fs1 hm]
      apply createDirs_mono
      simp only
      have h1 : ¬ w.fs.isDir (viewDir baseDir) = true := by simp [hfresh]
      unfold MkdirAll at hm
      rw [if_neg h1] at hm
      by_cases h2 : w.fs.isFile (viewDir baseDir) = true
      · rw [if_pos h2] at hm
        simp at hm
      · rw [if_neg h2] at hm
        have hc2 : (mkdirChain faults w.fs (ancestors (viewDir baseDir) ++ [viewDir baseDir])).2
            = none := by rw [hm]
        have hall := mkdirChain_ok faults _ w.fs hc2
        rw [hm] at hall
        simp only at hall
        rcases Clean_mem_ancestors baseDir (str "views") normal_dirs.1 with h | h
        · exact hall _ (List.mem_append_left _ h)
        · have := mkdirChain_mono faults (ancestors (viewDir baseDir) ++ [viewDir baseDir]) w.fs
            (Clean baseDir) (by simp [FS.isDir, h])
          rw [hm] at this
          exact this

end FiberGen
